import Mathlib

/-!
Verification of the Jinja-style column-name template renderer of
`plugin-chart-custom-table` (`src/utils/jinjaRenderer.ts`) together with the
column context builder documented in the repository
(`generateDynamicColumnName` listing).

The JavaScript source is shallowly embedded: JS strings become `String`
(scanned as `List Char`), JS numbers become `ℚ` (exact for the integer values
the renderer manipulates; the non-integer printing branches approximate IEEE
printing and are never relied upon by a theorem), JS objects holding template
variables become association lists in insertion order, and the few regular
expressions of the source are compiled by hand into explicit backtracking
scanners with JavaScript's leftmost-match, lazy/greedy semantics.
-/

namespace JR

/-- Character matched by the regex class `\s` (ASCII part; the renderer only
ever meets ASCII whitespace). -/
def isWs (c : Char) : Bool :=
  c == ' ' || c == '\t' || c == '\n' || c == '\r' || c == Char.ofNat 11 || c == Char.ofNat 12

/-- Character matched by the regex metacharacter `.` (anything but a line
terminator). -/
def isDotChar (c : Char) : Bool :=
  !(c == '\n' || c == '\r')

/-- The single-quote character. -/
def sq : Char := Char.ofNat 39

/-- The double-quote character. -/
def dq : Char := Char.ofNat 34

/-- Character matched by the regex class `['"]`. -/
def isQuote (c : Char) : Bool :=
  c == sq || c == dq

/-- Drop the maximal whitespace prefix (the deterministic reading of a greedy
`\s*` whose follow set contains no whitespace character). -/
def dropWsL : List Char → List Char
  | [] => []
  | c :: cs => if isWs c then dropWsL cs else c :: cs

/-- All ways a greedy-with-backtracking `\s*` can split off a whitespace
prefix, longest prefix consumed first: the list of remaining suffixes. -/
def wsSuffixes : List Char → List (List Char)
  | [] => [[]]
  | c :: cs => if isWs c then wsSuffixes cs ++ [c :: cs] else [c :: cs]

/-- JavaScript `String.prototype.trim` on a character list. -/
def trimL (s : List Char) : List Char :=
  ((s.dropWhile isWs).reverse.dropWhile isWs).reverse

/-- JavaScript `String.prototype.trim`. -/
def trimS (s : String) : String := ⟨trimL s.data⟩

/-- A primitive cell value of a data row (`DataRecord` entries). -/
inductive Prim where
  | pUndef
  | pNull
  | pBool (b : Bool)
  | pNum (q : ℚ)
  | pStr (s : String)
deriving DecidableEq

/-- One data row: a JS record from column key to primitive value, in key
insertion order with distinct keys. -/
abbrev RowRec := List (String × Prim)

/-- A context value: what a template variable can be bound to (spec §3:
absent/null, boolean, number, text, one data row, a list of rows; `vArr`
additionally covers the `metrics` string array of the context builder). -/
inductive Value where
  | vUndef
  | vNull
  | vBool (b : Bool)
  | vNum (q : ℚ)
  | vStr (s : String)
  | vRecord (r : RowRec)
  | vRows (rs : List RowRec)
  | vArr (ps : List Prim)
deriving DecidableEq

/-- The template context: a JS object as an association list in insertion
order; keys are distinct as JS object keys are, and lookup takes the first
binding. -/
abbrev Context := List (String × Value)

/-- Object property read `variables[name]`: `undefined` when absent. -/
def getVar (vars : Context) (name : String) : Value :=
  match List.lookup name vars with
  | some v => v
  | none => Value.vUndef

/-- Object property test `variables.hasOwnProperty(name)`. -/
def hasVar (vars : Context) (name : String) : Bool :=
  (List.lookup name vars).isSome

/-- Decimal digit character of a digit value. -/
def digitChar (d : Nat) : Char := Char.ofNat (48 + d % 10)

/-- Insert the en-US thousands separators into a reversed digit list: every
three digits (counting from the low end) a comma. -/
def groupRev : Nat → List Char → List Char
  | _, [] => []
  | 0, c :: cs => ',' :: c :: groupRev 2 cs
  | k + 1, c :: cs => c :: groupRev k cs

/-- Group a digit string by thousands, e.g. `1234` printed as `1,234`. -/
def groupDigits (s : String) : String :=
  ⟨(groupRev 3 s.data.reverse).reverse⟩

/-- Decimal expansion of the fraction `frNum / den` (with `frNum < den`), at
most `fuel` digits (JS prints a finite double expansion; exact for the
terminating decimals the renderer meets). Kept in `Nat` arithmetic so the
kernel can evaluate it. -/
def fracDigitsN : Nat → Nat → Nat → List Char
  | 0, _, _ => []
  | fuel + 1, frNum, den =>
    if frNum = 0 then []
    else digitChar (frNum * 10 / den) :: fracDigitsN fuel (frNum * 10 % den) den

/-- JavaScript `String(n)` for a nonnegative number (integer case exact;
the fractional branch approximates double printing, unused by any claim). -/
def ratToStrNN (q : ℚ) : String :=
  if q.den = 1 then toString q.num.toNat
  else toString (q.num.toNat / q.den) ++ "." ++ ⟨fracDigitsN 20 (q.num.toNat % q.den) q.den⟩

/-- JavaScript `String(n)` for a number. -/
def ratToStr (q : ℚ) : String :=
  if q < 0 then "-" ++ ratToStrNN (-q) else ratToStrNN q

/-- Strip trailing zeros of a fraction-digit string. -/
def stripZeros (s : List Char) : List Char :=
  (s.reverse.dropWhile (fun c => c == '0')).reverse

/-- Left-pad a numeral to three digits. -/
def pad3 (n : Nat) : List Char :=
  let s := (toString n).data
  List.replicate (3 - s.length) '0' ++ s

/-- JavaScript `n.toLocaleString()` for a nonnegative number under the en-US
default locale: thousands grouping, at most three fraction digits (half-up
approximation of the Intl rounding, computed in `Nat` arithmetic as
`⌊1000·frac + 1/2⌋`; only the integer branch is relied upon by a claim). -/
def ratToLocaleNN (q : ℚ) : String :=
  let ip : Nat := q.num.toNat / q.den
  let frNum : Nat := q.num.toNat % q.den
  let m : Nat := (2 * frNum * 1000 + q.den) / (2 * q.den)
  if 1000 ≤ m then groupDigits (toString (ip + 1))
  else if m = 0 then groupDigits (toString ip)
  else groupDigits (toString ip) ++ "." ++ ⟨stripZeros (pad3 m)⟩

/-- JavaScript `n.toLocaleString()`. -/
def ratToLocale (q : ℚ) : String :=
  if q < 0 then "-" ++ ratToLocaleNN (-q) else ratToLocaleNN q

/-- An opening curly brace, as a one-character string. -/
def lbS : String := ⟨['{']⟩

/-- A closing curly brace, as a one-character string. -/
def rbS : String := ⟨['}']⟩

/-- JSON form of a primitive (string escaping is not modelled: no value in a
theorem carries a quote or backslash). -/
def primJson : Prim → String
  | .pUndef => "null"
  | .pNull => "null"
  | .pBool b => if b then "true" else "false"
  | .pNum q => ratToStr q
  | .pStr s => ⟨[dq]⟩ ++ s ++ ⟨[dq]⟩

/-- JSON.stringify of one record: `undefined`-valued properties are dropped. -/
def jsonRecord (r : RowRec) : String :=
  lbS ++ String.intercalate ","
    (r.filterMap fun kv =>
      match kv.2 with
      | .pUndef => none
      | v => some (⟨[dq]⟩ ++ kv.1 ++ ⟨[dq]⟩ ++ ":" ++ primJson v)) ++ rbS

/-- JSON.stringify of a row list. -/
def jsonRows (rs : List RowRec) : String :=
  "[" ++ String.intercalate "," (rs.map jsonRecord) ++ "]"

/-- JSON.stringify of a primitive array (`undefined` elements print `null`). -/
def jsonArr (ps : List Prim) : String :=
  "[" ++ String.intercalate "," (ps.map primJson) ++ "]"

/-- JavaScript `String(p)` of a primitive. -/
def primToStr : Prim → String
  | .pUndef => "undefined"
  | .pNull => "null"
  | .pBool b => if b then "true" else "false"
  | .pNum q => ratToStr q
  | .pStr s => s

/-- JavaScript `String(value)` of a context value (arrays stringify by
joining their elements with commas, `null`/`undefined` elements as empty). -/
def jsStringOf : Value → String
  | .vUndef => "undefined"
  | .vNull => "null"
  | .vBool b => if b then "true" else "false"
  | .vNum q => ratToStr q
  | .vStr s => s
  | .vRecord _ => "[object Object]"
  | .vRows rs => String.intercalate "," (rs.map fun _ => "[object Object]")
  | .vArr ps =>
    String.intercalate "," (ps.map fun p =>
      match p with
      | .pUndef => ""
      | .pNull => ""
      | p => primToStr p)

/-- JavaScript `Boolean(value)`. -/
def jsTruthy : Value → Bool
  | .vUndef => false
  | .vNull => false
  | .vBool b => b
  | .vNum q => decide (q ≠ 0)
  | .vStr s => decide (s ≠ "")
  | .vRecord _ => true
  | .vRows _ => true
  | .vArr _ => true

/-- The `displayValue` formatting of `renderJinjaTemplate`: numbers print
locale-grouped, non-null objects JSON-stringify, `null`/`undefined` print
empty, everything else through `String(value)`. -/
def formatValue : Value → String
  | .vNum q => ratToLocale q
  | .vRecord r => jsonRecord r
  | .vRows rs => jsonRows rs
  | .vArr ps => jsonArr ps
  | .vNull => ""
  | .vUndef => ""
  | .vBool b => if b then "true" else "false"
  | .vStr s => s

/-- Tail of the variable-placeholder regex `\{\{\s*key\s*\}\}` after the
opening braces and a chosen `\s*` split: the literal (escaped) key, then a
greedy `\s*` (deterministic, `}` is not whitespace), then `}}`; returns the
remaining input on success. -/
def phTail (key : List Char) (r : List Char) : Option (List Char) :=
  if key.isPrefixOf r then
    match dropWsL (r.drop key.length) with
    | a :: b :: rest => if a == '}' && b == '}' then some rest else none
    | _ => none
  else none

/-- Match the whole placeholder regex `\{\{\s*key\s*\}\}` at the head of the
input (the `RegExp` built by `renderJinjaTemplate`, whose key is
metacharacter-escaped and therefore literal); the first `\s*` backtracks
longest-first. Returns the input remaining after the match. -/
def phMatchAt (key : List Char) : List Char → Option (List Char)
  | a :: b :: r =>
    if a == '{' && b == '{' then (wsSuffixes r).findSome? (phTail key) else none
  | _ => none

/-- Global regex replace for one placeholder pattern: scan left to right,
splice the replacement at each match and continue after it (`String.replace`
with a `g` flag). Fuel decreases once per consumed character; the wrapper
passes the input length, which suffices since a match consumes at least four
characters. -/
def phReplace (key val : List Char) : Nat → List Char → List Char
  | 0, s => s
  | _ + 1, [] => []
  | fuel + 1, c :: cs =>
    match phMatchAt key (c :: cs) with
    | some rest => val ++ phReplace key val fuel rest
    | none => c :: phReplace key val fuel cs

/-- One interpolation pass of `renderJinjaTemplate`: replace every occurrence
of `{{ key }}` by the formatted value. -/
def replaceVar (key val s : String) : String :=
  ⟨phReplace key.data val.data s.data.length s.data⟩

/-- The `Object.entries(variables).forEach` interpolation loop: one global
replace per context entry, in insertion order. -/
def interpolateAll (vars : Context) (s : String) : String :=
  vars.foldl (fun acc kv => replaceVar kv.1 (formatValue kv.2) acc) s

/-- Lazy group `(.+?)` followed by a closing quote `['"]`: the shortest
nonempty run of `.`-characters after which a quote stands; returns the
captured run and the input after the closing quote. -/
def grabLitGo (acc : List Char) : List Char → Option (List Char × List Char)
  | [] => none
  | d :: ds =>
    if isQuote d then some (acc.reverse, ds)
    else if isDotChar d then grabLitGo (d :: acc) ds
    else none

/-- Entry point of the lazy quoted-literal group: the first character joins
the group unconditionally (the group is nonempty before the quote test). -/
def grabLit : List Char → Option (List Char × List Char)
  | [] => none
  | c :: cs => if isDotChar c then grabLitGo [c] cs else none

/-- After a candidate first group of the equality regex
`/(.+?)\s*==\s*['"](.+?)['"]/`: greedy `\s*`, the literal `==`, greedy `\s*`,
an opening quote, then the lazy quoted literal. -/
def eqTail (rest : List Char) : Option (List Char) :=
  match dropWsL rest with
  | a :: b :: r2 =>
    if a == '=' && b == '=' then
      match dropWsL r2 with
      | q :: r3 => if isQuote q then (grabLit r3).map Prod.fst else none
      | [] => none
    else none
  | _ => none

/-- Grow the lazy first group `(.+?)` of the equality regex one character at a
time (shortest first, as a lazy quantifier backtracks), testing the tail at
each length; `acc` holds the group so far, reversed. -/
def eqGrow (acc : List Char) : List Char → Option (List Char × List Char)
  | [] => none
  | c :: cs =>
    if isDotChar c then
      match eqTail cs with
      | some lit => some ((c :: acc).reverse, lit)
      | none => eqGrow (c :: acc) cs
    else none

/-- Try the equality regex anchored at every start position, leftmost first
(`String.prototype.match` semantics); yields the two captured groups. -/
def matchEq : List Char → Option (List Char × List Char)
  | [] => none
  | c :: cs =>
    match eqGrow [] (c :: cs) with
    | some r => some r
    | none => matchEq cs

/-- Lazy group `(.+?)` of the startswith regex, closed by a quote that must be
immediately followed by `)`; a quote not followed by `)` stays inside the
group. -/
def grabLit2Go (acc : List Char) : List Char → Option (List Char)
  | d :: e :: ds =>
    if isQuote d && e == ')' then some acc.reverse
    else if isDotChar d then grabLit2Go (d :: acc) (e :: ds)
    else none
  | _ => none

/-- Entry point of the startswith literal group (nonempty before the close
test). -/
def grabLit2 : List Char → Option (List Char)
  | [] => none
  | c :: cs => if isDotChar c then grabLit2Go [c] cs else none

/-- After a candidate first group of `/(.+?)\.startswith\(['"](.+?)['"]\)/`:
the literal `.startswith(`, an opening quote, then the lazily captured
prefix literal closed by a quote and `)`. -/
def swTail (rest : List Char) : Option (List Char) :=
  if ".startswith(".data.isPrefixOf rest then
    match rest.drop 12 with
    | q :: r2 => if isQuote q then grabLit2 r2 else none
    | [] => none
  else none

/-- Grow the lazy first group of the startswith regex, shortest first. -/
def swGrow (acc : List Char) : List Char → Option (List Char × List Char)
  | [] => none
  | c :: cs =>
    if isDotChar c then
      match swTail cs with
      | some lit => some ((c :: acc).reverse, lit)
      | none => swGrow (c :: acc) cs
    else none

/-- Try the startswith regex at every start position, leftmost first. -/
def matchSw : List Char → Option (List Char × List Char)
  | [] => none
  | c :: cs =>
    match swGrow [] (c :: cs) with
    | some r => some r
    | none => matchSw cs

/-- JavaScript `a.startsWith(b)`. -/
def jsStarts (s pre : String) : Bool :=
  pre.data.isPrefixOf s.data

/-- The condition evaluator `evaluateCondition`: an `==` comparison against a
quoted literal first, then a `.startswith('…')` test (whose subject defaults
falsy values to the empty string), then bare-name truthiness; an unknown bare
name is false. The source's try/catch cannot fire in this total model. -/
def evaluateCondition (condition : String) (vars : Context) : Bool :=
  match matchEq condition.data with
  | some (vn, lit) => jsStringOf (getVar vars (trimS ⟨vn⟩)) == (⟨lit⟩ : String)
  | none =>
    match matchSw condition.data with
    | some (vn, pre) =>
      let v := getVar vars (trimS ⟨vn⟩)
      let actual := if jsTruthy v then jsStringOf v else ""
      jsStarts actual ⟨pre⟩
    | none =>
      let vn := trimS condition
      if hasVar vars vn then jsTruthy (getVar vars vn) else false

/-- Match a directive head `\{\%\s*word\s+([^%}]+)\s*\%\}` (used with `if`
and `elif`) at the start of the input. The `\s*` before the word and after
the argument run are deterministic (their follow characters are not
whitespace); `\s+` plus the greedy `[^%}]+` amount to: the run of
non-`%`/`}` characters after the word must start with whitespace and the
captured group is that run minus its leading whitespace (falling back to the
run's last character when the run is all whitespace and long enough).
Returns the raw captured group and the input after `%}`. -/
def tagArgAt (word : List Char) (s : List Char) : Option (List Char × List Char) :=
  match s with
  | a :: b :: r =>
    if a == '{' && b == '%' then
      let r1 := dropWsL r
      if word.isPrefixOf r1 then
        let r2 := r1.drop word.length
        match r2 with
        | c :: _ =>
          if isWs c then
            let run := r2.takeWhile (fun ch => !(ch == '%' || ch == '}'))
            let rest := r2.dropWhile (fun ch => !(ch == '%' || ch == '}'))
            match rest with
            | d :: e :: rest2 =>
              if d == '%' && e == '}' then
                let g := run.dropWhile isWs
                if g.isEmpty then
                  if 2 ≤ run.length then
                    match run.reverse with
                    | lastc :: _ => some ([lastc], rest2)
                    | [] => none
                  else none
                else some (g, rest2)
              else none
            | _ => none
          else none
        | [] => none
      else none
    else none
  | _ => none

/-- Match `\{\%\s*else\s*\%\}` at the start of the input. -/
def elseTagAt (s : List Char) : Option (List Char) :=
  match s with
  | a :: b :: r =>
    if a == '{' && b == '%' then
      let r1 := dropWsL r
      if "else".data.isPrefixOf r1 then
        match dropWsL (r1.drop 4) with
        | d :: e :: rest => if d == '%' && e == '}' then some rest else none
        | _ => none
      else none
    else none
  | _ => none

/-- Match `\{\%\s*endif\s*\%\}` at the start of the input. -/
def endifTagAt (s : List Char) : Option (List Char) :=
  match s with
  | a :: b :: r =>
    if a == '{' && b == '%' then
      let r1 := dropWsL r
      if "endif".data.isPrefixOf r1 then
        match dropWsL (r1.drop 5) with
        | d :: e :: rest => if d == '%' && e == '}' then some rest else none
        | _ => none
      else none
    else none
  | _ => none

/-- The lazy body group `([\s\S]*?)` up to the first `{% endif %}` tag:
shortest prefix after which the endif tag matches; returns the prefix and
the input after the tag. -/
def findEndif : List Char → Option (List Char × List Char)
  | [] => none
  | c :: cs =>
    match endifTagAt (c :: cs) with
    | some rest => some ([], rest)
    | none => (findEndif cs).map (fun pr => (c :: pr.1, pr.2))

/-- The global `elifRegex.exec` loop: every elif tag of the block interior,
as (match start index, trimmed captured condition); scanning resumes after
each match (`lastIndex` semantics). Fuel ticks once per consumed character. -/
def findElifs : Nat → Nat → List Char → List (Nat × String)
  | 0, _, _ => []
  | _ + 1, _, [] => []
  | fuel + 1, pos, c :: cs =>
    match tagArgAt "elif".data (c :: cs) with
    | some (g, rest) =>
      (pos, trimS ⟨g⟩) :: findElifs fuel (pos + ((c :: cs).length - rest.length)) rest
    | none => findElifs fuel (pos + 1) cs

/-- First match position of the else tag in the block interior
(`elseRegex.exec` called once). -/
def findElse : Nat → List Char → Option Nat
  | _, [] => none
  | pos, c :: cs =>
    if (elseTagAt (c :: cs)).isSome then some pos else findElse (pos + 1) cs

/-- A breakpoint: an elif (with its trimmed condition) or the else marker. -/
inductive BPKind where
  | elifBP (cond : String)
  | elseBP
deriving DecidableEq

/-- Stable insertion of a breakpoint into an index-sorted list (earlier
array elements stay before equal-index later ones, as the JS stable sort). -/
def insertBP (x : Nat × BPKind) : List (Nat × BPKind) → List (Nat × BPKind)
  | [] => [x]
  | y :: ys => if x.1 ≤ y.1 then x :: y :: ys else y :: insertBP x ys

/-- The `breakpoints.sort((a, b) => a.index - b.index)` call. -/
def sortBPs : List (Nat × BPKind) → List (Nat × BPKind)
  | [] => []
  | x :: xs => insertBP x (sortBPs xs)

/-- Search for the literal `%}` from a relative position, reporting the
absolute index (`-1` when absent), as `content.indexOf('%}', i)`. -/
def idxPctGo : Nat → List Char → Int
  | _, [] => -1
  | _, [_] => -1
  | pos, c :: d :: rest =>
    if c == '%' && d == '}' then (pos : Int) else idxPctGo (pos + 1) (d :: rest)

/-- JavaScript `content.indexOf('%}', start)`. -/
def idxPct (s : List Char) (start : Nat) : Int :=
  idxPctGo start (s.drop start)

/-- JavaScript `String.prototype.substring`: clamp both indices to the
string bounds and swap them when out of order. -/
def jsSubstring (s : List Char) (a b : Int) : List Char :=
  let n : Int := s.length
  let a' := min (max a 0) n
  let b' := min (max b 0) n
  let lo := min a' b'
  let hi := max a' b'
  (s.take hi.toNat).drop lo.toNat

/-- Branch kind of a parsed block. -/
inductive BlockTy where
  | tIf
  | tElif
  | tElse
deriving DecidableEq

/-- One parsed branch of a conditional block. -/
structure JBlock where
  ty : BlockTy
  cond : Option String
  body : String
deriving DecidableEq

/-- The breakpoint loop of `processConditionalBlocks`: for each breakpoint,
the branch body runs from just after the tag's `%}` (found by `indexOf`
from the breakpoint) to the next breakpoint (or the end), trimmed. -/
def mkBlocks (content : List Char) : List (Nat × BPKind) → List JBlock
  | [] => []
  | bp :: rest =>
    let tagEnd : Int := idxPct content bp.1 + 2
    let blockEnd : Int :=
      match rest with
      | nb :: _ => (nb.1 : Int)
      | [] => (content.length : Int)
    let bc : String := ⟨trimL (jsSubstring content tagEnd blockEnd)⟩
    (⟨match bp.2 with | .elifBP _ => .tElif | .elseBP => .tElse,
      match bp.2 with | .elifBP c => some c | .elseBP => none,
      bc⟩ : JBlock) :: mkBlocks content rest

/-- The branch selection loop: an else branch returns its body outright; an
if/elif branch returns its body when its condition string is truthy
(nonempty) and evaluates true; otherwise the empty string. -/
def chooseBlock (vars : Context) : List JBlock → String
  | [] => ""
  | b :: bs =>
    match b.ty, b.cond with
    | .tElse, _ => b.body
    | _, some c =>
      if c != "" && evaluateCondition c vars then b.body else chooseBlock vars bs
    | _, none => chooseBlock vars bs

/-- The replacement callback of `processConditionalBlocks` applied to one
matched span: collect elif/else breakpoints of the interior, sort them by
index, slice the branch bodies, and select the surviving branch. -/
def processBlockMatch (vars : Context) (firstCondition content : String) : String :=
  let elifs := findElifs content.data.length 0 content.data
  let elseIdx := findElse 0 content.data
  let bps := sortBPs (elifs.map (fun p => (p.1, BPKind.elifBP p.2)) ++
    (match elseIdx with | some i => [(i, BPKind.elseBP)] | none => []))
  let firstEnd : Nat := match bps with | bp :: _ => bp.1 | [] => content.data.length
  let blocks := (⟨.tIf, some (trimS firstCondition), ⟨trimL (content.data.take firstEnd)⟩⟩ : JBlock)
    :: mkBlocks content.data bps
  chooseBlock vars blocks

/-- Match the full span regex
`\{\%\s*if\s+([^%}]+)\s*\%\}([\s\S]*?)\{\%\s*endif\s*\%\}` at the start of
the input: the if head, then the lazily shortest interior up to an endif
tag. Yields (raw condition group, interior, remaining input). -/
def matchIfFull (s : List Char) : Option (List Char × List Char × List Char) :=
  match tagArgAt "if".data s with
  | some (g, r) =>
    match findEndif r with
    | some (content, rest) => some (g, content, rest)
    | none => none
  | none => none

/-- The global span replacement scan of `template.replace(fullBlockPattern,
callback)`: leftmost matches, resuming after each replacement. -/
def processGo (vars : Context) : Nat → List Char → List Char
  | 0, s => s
  | _ + 1, [] => []
  | fuel + 1, c :: cs =>
    match matchIfFull (c :: cs) with
    | some (g, content, rest) =>
      (processBlockMatch vars ⟨g⟩ ⟨content⟩).data ++ processGo vars fuel rest
    | none => c :: processGo vars fuel cs

/-- The exported `processConditionalBlocks`. -/
def processConditionalBlocks (template : String) (vars : Context) : String :=
  ⟨processGo vars template.data.length template.data⟩

/-- The exported `renderJinjaTemplate`: an empty template short-circuits
(`!template` guard), otherwise conditional blocks reduce first and the
variable interpolation loop runs on the result. -/
def renderJinjaTemplate (template : String) (vars : Context) : String :=
  if template = "" then ""
  else interpolateAll vars (processConditionalBlocks template vars)

/-- The static identifier-to-label table of `transformColumnName`. -/
def transformations : List (String × String) :=
  [("jefe_marca", "Jefe Marca"), ("sell_in", "Sell In"), ("anio_id", "Año"),
   ("mes_id", "Mes"), ("fecha", "Fecha")]

/-- The five aggregate function names, in the alternation order of
`/^(SUM|COUNT|AVG|MAX|MIN)\((.*)\)$/i`. -/
def aggFuncs : List String := ["SUM", "COUNT", "AVG", "MAX", "MIN"]

/-- Try one alternative of the anchored aggregate-wrapper regex: the function
name case-insensitively, an opening parenthesis, any non-line-terminator
middle, and a final closing parenthesis at the very end. Yields the
upper-cased function name (`match[1].toUpperCase()`) and the middle verbatim. -/
def parseAggWith (f : String) (s : List Char) : Option (String × String) :=
  if (f.data ++ ['(']).isPrefixOf (s.map Char.toUpper) then
    let r := s.drop (f.length + 1)
    match r.reverse with
    | ')' :: midRev =>
      let mid := midRev.reverse
      if mid.all isDotChar then some (f, ⟨mid⟩) else none
    | _ => none
  else none

/-- Match the aggregate-wrapper regex, alternatives in order. -/
def parseAgg (s : List Char) : Option (String × String) :=
  aggFuncs.findSome? (fun f => parseAggWith f s)

/-- The exported `transformColumnName`: aggregate wrappers map to a fixed
Spanish prefix word plus the table translation of the field; bare
identifiers go through the table directly; both default to the input
unchanged. -/
def transformColumnName (columnName : String) : String :=
  match parseAgg columnName.data with
  | some (func, field) =>
    let transformedField :=
      match List.lookup field transformations with
      | some t => t
      | none => field
    match func with
    | "SUM" => "Total " ++ transformedField
    | "COUNT" => "Cantidad " ++ transformedField
    | "AVG" => "Promedio " ++ transformedField
    | "MAX" => "Máximo " ++ transformedField
    | "MIN" => "Mínimo " ++ transformedField
    | f => f ++ " " ++ transformedField
  | none =>
    match List.lookup columnName transformations with
    | some t => t
    | none => columnName

/-- Column metadata (`DataColumnMeta`) as consumed by the context builder;
`originalLabel` is optional in the source. -/
structure DataColumnMeta where
  key : String
  label : String
  originalLabel : Option String
  dataType : String
  isNumeric : Bool
  isMetric : Bool
  isPercentMetric : Bool
deriving DecidableEq

/-- Row property read `row[key]` (`undefined` when the key is absent). -/
def rowGet (r : RowRec) (k : String) : Prim :=
  match List.lookup k r with
  | some p => p
  | none => Prim.pUndef

/-- The filter `val !== null && val !== undefined` of the context builder. -/
def primNotNullish : Prim → Bool
  | .pNull => false
  | .pUndef => false
  | _ => true

/-- The filter `typeof val === 'number'`, projecting the number. -/
def primNum? : Prim → Option ℚ
  | .pNum q => some q
  | _ => none

/-- Promote a row primitive to a context value. -/
def primToValue : Prim → Value
  | .pUndef => .vUndef
  | .pNull => .vNull
  | .pBool b => .vBool b
  | .pNum q => .vNum q
  | .pStr s => .vStr s

/-- `Math.min(...l)` over a nonempty list (the empty case is unreachable
behind the nonemptiness guard of the builder). -/
def foldMin : List ℚ → ℚ
  | [] => 0
  | x :: xs => xs.foldl min x

/-- `Math.max(...l)` over a nonempty list. -/
def foldMax : List ℚ → ℚ
  | [] => 0
  | x :: xs => xs.foldl max x

/-- `columnData` of the context builder: the column's own values with null
and undefined entries removed. -/
def columnDataOf (col : DataColumnMeta) (data : List RowRec) : List Prim :=
  (data.map (fun r => rowGet r col.key)).filter primNotNullish

/-- `numericData`: the non-null entries that are numbers. -/
def numericDataOf (col : DataColumnMeta) (data : List RowRec) : List ℚ :=
  (columnDataOf col data).filterMap primNum?

/-- `columnMetrics` of the context builder (`generateDynamicColumnName`
listing): sum/avg/min/max/count over the numeric entries, built only when
the column is flagged numeric and both filters leave something. -/
def columnMetricsOf (col : DataColumnMeta) (data : List RowRec) : Context :=
  if col.isNumeric && !(columnDataOf col data).isEmpty then
    let nd := numericDataOf col data
    if !nd.isEmpty then
      [("sum", .vNum (nd.foldl (· + ·) 0)),
       ("avg", .vNum ((nd.foldl (· + ·) 0) / (nd.length : ℚ))),
       ("min", .vNum (foldMin nd)),
       ("max", .vNum (foldMax nd)),
       ("count", .vNum (nd.length : ℚ))]
    else []
  else []

/-- JavaScript `a || b` for an optional string (`undefined` and the empty
string are falsy). -/
def jsOrStr (a : Option String) (b : String) : String :=
  match a with
  | some s => if s = "" then b else s
  | none => b

/-- The template-variable bag of the documented `generateDynamicColumnName`:
fixed keys, the spread of `columnMetrics`, the metric entries when enabled,
and first/last column values when defined — in JS object insertion order. -/
def buildColumnVariables (col : DataColumnMeta) (data : List RowRec)
    (useMetric : Bool) (metrics : Option (List String)) : Context :=
  let firstRow : RowRec := match data.head? with | some r => r | none => []
  let lastRow : RowRec := match data.getLast? with | some r => r | none => []
  let base : Context :=
    [("column_name", .vStr col.label),
     ("original_label", .vStr (jsOrStr col.originalLabel col.label)),
     ("key", .vStr col.key),
     ("data_type", .vStr col.dataType),
     ("row_count", .vNum (data.length : ℚ)),
     ("first_row", .vRecord firstRow),
     ("last_row", .vRecord lastRow),
     ("data", .vRows data),
     ("is_metric", .vBool col.isMetric),
     ("is_percent_metric", .vBool col.isPercentMetric),
     ("is_numeric", .vBool col.isNumeric)]
    ++ columnMetricsOf col data
  let withMetrics := base ++
    (match useMetric, metrics with
     | true, some ms => [("metrics", .vArr (ms.map Prim.pStr)), ("metric_count", .vNum (ms.length : ℚ))]
     | _, _ => [])
  let withFirst := withMetrics ++
    (if rowGet firstRow col.key ≠ Prim.pUndef then
      [("first_value", primToValue (rowGet firstRow col.key))]
     else [])
  withFirst ++
    (if rowGet lastRow col.key ≠ Prim.pUndef then
      [("last_value", primToValue (rowGet lastRow col.key))]
     else [])

/-- The documented `renderJinjaTemplate` of the `generateDynamicColumnName`
listing: the interpolation loop alone (no conditional pass; its unescaped
keys are plain identifiers, for which the pattern is the same literal one). -/
def renderJinjaTemplateDoc (template : String) (vars : Context) : String :=
  if template = "" then "" else interpolateAll vars template

/-- The documented `generateDynamicColumnName`: fall back to the column
label on an empty template, otherwise render with the built variable bag. -/
def generateDynamicColumnName (col : DataColumnMeta) (data : List RowRec)
    (template : String) (useMetric : Bool) (metrics : Option (List String)) : String :=
  if template = "" then col.label
  else renderJinjaTemplateDoc template (buildColumnVariables col data useMetric metrics)

/-- Characters inert for every regex of the renderer: not whitespace, not a
line terminator, not a quote, and none of `=`, `{`, `}`, `%`. Identifier
characters are of this kind. -/
def plainChar (c : Char) : Bool :=
  !isWs c && isDotChar c && !isQuote c && c != '=' && c != '{' && c != '}' && c != '%'

/-- The fixed prefix word per aggregate function of `transformColumnName`
(the arms of its `switch`). -/
def prefixWordFor : String → String
  | "SUM" => "Total "
  | "COUNT" => "Cantidad "
  | "AVG" => "Promedio "
  | "MAX" => "Máximo "
  | "MIN" => "Mínimo "
  | f => f ++ " "

/-- Lookup in the static translation table, defaulting to the identifier
unchanged. -/
def tableLookupOr (s : String) : String :=
  match List.lookup s transformations with
  | some t => t
  | none => s

/-- Upper-case a string character by character (`String.prototype.toUpperCase`
over the ASCII identifiers involved). -/
def upperStr (s : String) : String := ⟨s.data.map Char.toUpper⟩

theorem data_append (a b : String) : (a ++ b).data = a.data ++ b.data := rfl

theorem plainFacts (c : Char) (h : plainChar c = true) :
    isWs c = false ∧ isDotChar c = true ∧ isQuote c = false ∧
    c ≠ '=' ∧ c ≠ '{' ∧ c ≠ '}' ∧ c ≠ '%' := by
  simp only [plainChar, Bool.and_eq_true, Bool.not_eq_true', bne_iff_ne, ne_eq] at h
  tauto

theorem dropWsL_cons_notWs (c : Char) (cs : List Char) (h : isWs c = false) :
    dropWsL (c :: cs) = c :: cs := by
  simp [dropWsL, h]

theorem dropWhileWs_plain (l : List Char) (h : ∀ c ∈ l, isWs c = false) :
    l.dropWhile isWs = l := by
  cases l with
  | nil => rfl
  | cons c cs => simp [List.dropWhile_cons, h c (by simp)]

theorem trimL_plain (l : List Char) (h : ∀ c ∈ l, isWs c = false) : trimL l = l := by
  unfold trimL
  rw [dropWhileWs_plain l h,
    dropWhileWs_plain l.reverse (fun c hc => h c (List.mem_reverse.mp hc)),
    List.reverse_reverse]

theorem trimS_plain (s : String) (h : ∀ c ∈ s.data, isWs c = false) : trimS s = s := by
  unfold trimS
  rw [trimL_plain _ h]

theorem grabLitGo_run (q : Char) (tail : List Char) (hq : isQuote q = true) :
    ∀ (ls acc : List Char), (∀ c ∈ ls, isDotChar c = true ∧ isQuote c = false) →
    grabLitGo acc (ls ++ q :: tail) = some (acc.reverse ++ ls, tail) := by
  intro ls
  induction ls with
  | nil => intro acc _; simp [grabLitGo, hq]
  | cons d ds ih =>
    intro acc hall
    have hd := hall d (by simp)
    rw [List.cons_append, grabLitGo, hd.2, hd.1]
    simp only [Bool.false_eq_true, if_false, if_true]
    rw [ih (d :: acc) (fun c hc => hall c (by simp [hc]))]
    simp

theorem grabLit_run (q : Char) (tail ls : List Char) (hq : isQuote q = true)
    (hne : ls ≠ []) (hall : ∀ c ∈ ls, isDotChar c = true ∧ isQuote c = false) :
    grabLit (ls ++ q :: tail) = some (ls, tail) := by
  cases ls with
  | nil => exact absurd rfl hne
  | cons c cs =>
    have hc := hall c (by simp)
    rw [List.cons_append, grabLit, hc.1]
    simp only [if_true]
    rw [grabLitGo_run q tail hq cs [c] (fun d hd => hall d (by simp [hd]))]
    simp

theorem eqTail_hit (q : Char) (lit : List Char) (hq : q = sq ∨ q = dq)
    (hlitne : lit ≠ []) (hlit : ∀ c ∈ lit, isDotChar c = true ∧ isQuote c = false) :
    eqTail (' ' :: '=' :: '=' :: ' ' :: q :: (lit ++ [q])) = some lit := by
  rcases hq with rfl | rfl
  · have h1 : eqTail (' ' :: '=' :: '=' :: ' ' :: sq :: (lit ++ [sq]))
        = (grabLit (lit ++ [sq])).map Prod.fst := rfl
    rw [h1, show (lit ++ [sq]) = lit ++ sq :: [] from rfl,
      grabLit_run sq [] lit (by decide) hlitne hlit]
    rfl
  · have h1 : eqTail (' ' :: '=' :: '=' :: ' ' :: dq :: (lit ++ [dq]))
        = (grabLit (lit ++ [dq])).map Prod.fst := rfl
    rw [h1, show (lit ++ [dq]) = lit ++ dq :: [] from rfl,
      grabLit_run dq [] lit (by decide) hlitne hlit]
    rfl

theorem eqTail_plainHead (d : Char) (x : List Char) (hd : plainChar d = true) :
    eqTail (d :: x) = none := by
  have h := plainFacts d hd
  unfold eqTail
  rw [dropWsL_cons_notWs d x h.1]
  cases x with
  | nil => rfl
  | cons y ys =>
    have : (d == '=') = false := by
      simp [h.2.2.2.1]
    simp [this]

theorem eqGrow_name (q : Char) (lit : List Char) (hq : q = sq ∨ q = dq)
    (hlitne : lit ≠ []) (hlit : ∀ c ∈ lit, isDotChar c = true ∧ isQuote c = false) :
    ∀ (nm acc : List Char), nm ≠ [] → (∀ c ∈ nm, plainChar c = true) →
    eqGrow acc (nm ++ (' ' :: '=' :: '=' :: ' ' :: q :: (lit ++ [q])))
      = some (acc.reverse ++ nm, lit) := by
  intro nm
  induction nm with
  | nil => intro acc h; exact absurd rfl h
  | cons c cs ih =>
    intro acc _ hall
    have hc := plainFacts c (hall c (by simp))
    cases cs with
    | nil =>
      rw [List.cons_append, List.nil_append, eqGrow, hc.2.1]
      simp only [if_true]
      rw [eqTail_hit q lit hq hlitne hlit]
      simp
    | cons d ds =>
      have hd := hall d (by simp)
      have hnone : eqTail ((d :: ds) ++ (' ' :: '=' :: '=' :: ' ' :: q :: (lit ++ [q]))) = none := by
        rw [List.cons_append]
        exact eqTail_plainHead d _ hd
      rw [List.cons_append, eqGrow, hc.2.1]
      simp only [if_true]
      rw [hnone]
      rw [ih (c :: acc) (by simp) (fun x hx => hall x (by simp [hx]))]
      simp

theorem matchEq_extract (q : Char) (nm lit : List Char) (hq : q = sq ∨ q = dq)
    (hnm : nm ≠ []) (hnmc : ∀ c ∈ nm, plainChar c = true)
    (hlitne : lit ≠ []) (hlit : ∀ c ∈ lit, isDotChar c = true ∧ isQuote c = false) :
    matchEq (nm ++ (' ' :: '=' :: '=' :: ' ' :: q :: (lit ++ [q]))) = some (nm, lit) := by
  cases nm with
  | nil => exact absurd rfl hnm
  | cons c cs =>
    rw [List.cons_append, matchEq, ← List.cons_append c cs,
      eqGrow_name q lit hq hlitne hlit (c :: cs) [] (by simp) hnmc]
    rfl

/-- The equality-condition reduction shared by the equality claims: for a
plain name and a quoted literal, `evaluateCondition` compares the string
form of the looked-up value against the literal. -/
theorem evalEqGeneral (nm lit : String) (q : Char) (vars : Context)
    (hnm : nm.data ≠ []) (hnmc : ∀ c ∈ nm.data, plainChar c = true)
    (hlitne : lit.data ≠ []) (hlit : ∀ c ∈ lit.data, isDotChar c = true ∧ isQuote c = false)
    (hq : q = sq ∨ q = dq) :
    evaluateCondition (nm ++ " == " ++ ⟨[q]⟩ ++ lit ++ ⟨[q]⟩) vars
      = (jsStringOf (getVar vars nm) == lit) := by
  have hdata : (nm ++ " == " ++ (⟨[q]⟩ : String) ++ lit ++ (⟨[q]⟩ : String)).data
      = nm.data ++ (' ' :: '=' :: '=' :: ' ' :: q :: (lit.data ++ [q])) := by
    simp [data_append]
  unfold evaluateCondition
  rw [hdata, matchEq_extract q nm.data lit.data hq hnm hnmc hlitne hlit]
  show (jsStringOf (getVar vars (trimS nm)) == lit) = (jsStringOf (getVar vars nm) == lit)
  rw [trimS_plain nm (fun c hc => (plainFacts c (hnmc c hc)).1)]

/-- C6: for an equality condition `name == 'literal'` (single or double
quotes), the Condition Evaluator returns true exactly when the JavaScript
string form of the context value bound to `name` is character-for-character
equal to the literal. -/
theorem C6_equality_compares_string_form (nm lit : String) (q : Char) (vars : Context)
    (hnm : nm.data ≠ []) (hnmc : ∀ c ∈ nm.data, plainChar c = true)
    (hlitne : lit.data ≠ []) (hlit : ∀ c ∈ lit.data, isDotChar c = true ∧ isQuote c = false)
    (hq : q = sq ∨ q = dq) :
    evaluateCondition (nm ++ " == " ++ ⟨[q]⟩ ++ lit ++ ⟨[q]⟩) vars
      = (jsStringOf (getVar vars nm) == lit) :=
  evalEqGeneral nm lit q vars hnm hnmc hlitne hlit hq

/-- C6 witness: with `row_count` bound to the number 0, the condition
`row_count == '0'` evaluates true. -/
theorem C6_witness :
    evaluateCondition ("row_count" ++ " == " ++ ⟨[sq]⟩ ++ "0" ++ ⟨[sq]⟩)
      [("row_count", Value.vNum 0)] = true := by
  rw [C6_equality_compares_string_form "row_count" "0" sq [("row_count", Value.vNum 0)]
    (by decide) (by decide) (by decide) (by decide) (Or.inl rfl)]
  decide

/-- C10: in an equality condition, a name absent from the context compares
by the string form `undefined`: the condition `name == 'lit'` evaluates to
whether `lit` is exactly `undefined`. -/
theorem C10_absent_name_compares_as_undefined (nm lit : String) (q : Char) (vars : Context)
    (hnm : nm.data ≠ []) (hnmc : ∀ c ∈ nm.data, plainChar c = true)
    (hlitne : lit.data ≠ []) (hlit : ∀ c ∈ lit.data, isDotChar c = true ∧ isQuote c = false)
    (hq : q = sq ∨ q = dq) (habs : List.lookup nm vars = none) :
    evaluateCondition (nm ++ " == " ++ ⟨[q]⟩ ++ lit ++ ⟨[q]⟩) vars
      = (lit == "undefined") := by
  rw [evalEqGeneral nm lit q vars hnm hnmc hlitne hlit hq]
  unfold getVar
  rw [habs]
  show (("undefined" : String) == lit) = (lit == "undefined")
  by_cases hcase : lit = "undefined"
  · subst hcase
    rfl
  · rw [beq_eq_false_iff_ne.mpr (fun h' => hcase h'.symm), beq_eq_false_iff_ne.mpr hcase]

/-- C10 witness: with an empty context, `foo == 'undefined'` is true and
`foo == 'bar'` is false. -/
theorem C10_witness :
    evaluateCondition ("foo" ++ " == " ++ ⟨[sq]⟩ ++ "undefined" ++ ⟨[sq]⟩) [] = true ∧
    evaluateCondition ("foo" ++ " == " ++ ⟨[sq]⟩ ++ "bar" ++ ⟨[sq]⟩) [] = false := by
  constructor
  · rw [C10_absent_name_compares_as_undefined "foo" "undefined" sq []
      (by decide) (by decide) (by decide) (by decide) (Or.inl rfl) (by decide)]
    decide
  · rw [C10_absent_name_compares_as_undefined "foo" "bar" sq []
      (by decide) (by decide) (by decide) (by decide) (Or.inl rfl) (by decide)]
    decide

/-- C1: the render entry point is total — every template string and every
context, including record- and list-valued bindings (serialized during
interpolation), yields a string result; the embedding translates every
branch of the source as a total function, so no input can fail. -/
theorem C1_render_total (template : String) (vars : Context) :
    ∃ r : String, renderJinjaTemplate template vars = r :=
  ⟨renderJinjaTemplate template vars, rfl⟩

theorem isPrefixOf_append_self : ∀ (a b : List Char), a.isPrefixOf (a ++ b) = true := by
  intro a
  induction a with
  | nil => intro b; simp [List.isPrefixOf]
  | cons x xs ih => intro b; simp [List.isPrefixOf, ih]

theorem upperData (s f : String) (h : upperStr s = f) : s.data.map Char.toUpper = f.data :=
  congrArg String.data h

theorem wrappedData (funcRaw field : String) :
    (funcRaw ++ "(" ++ field ++ ")").data = funcRaw.data ++ '(' :: (field.data ++ [')']) := by
  rw [data_append, data_append, data_append]
  have h1 : ("(" : String).data = ['('] := rfl
  have h2 : (")" : String).data = [')'] := rfl
  rw [h1, h2]
  simp [List.append_assoc]

theorem wrappedUpper (funcRaw field f : String) (hf : upperStr funcRaw = f) :
    ((funcRaw ++ "(" ++ field ++ ")").data).map Char.toUpper
      = f.data ++ '(' :: ((field.data).map Char.toUpper ++ [')']) := by
  rw [wrappedData]
  have h1 : Char.toUpper '(' = '(' := rfl
  have h2 : Char.toUpper ')' = ')' := rfl
  simp [List.map_append, upperData funcRaw f hf, h1, h2]

theorem findSome?_cons_none {α β : Type} (f : α → Option β) (a : α) (l : List α)
    (h : f a = none) : List.findSome? f (a :: l) = List.findSome? f l := by
  rw [List.findSome?_cons, h]

theorem findSome?_cons_some {α β : Type} (f : α → Option β) (a : α) (l : List α) (b : β)
    (h : f a = some b) : List.findSome? f (a :: l) = some b := by
  rw [List.findSome?_cons, h]

theorem parseAggWith_hit (funcRaw field f : String) (hf : upperStr funcRaw = f)
    (hfield : ∀ c ∈ field.data, isDotChar c = true) :
    parseAggWith f ((funcRaw ++ "(" ++ field ++ ")").data) = some (f, field) := by
  unfold parseAggWith
  rw [wrappedUpper funcRaw field f hf]
  have hpre : (f.data ++ ['(']).isPrefixOf
      (f.data ++ '(' :: ((field.data).map Char.toUpper ++ [')'])) = true := by
    have h := isPrefixOf_append_self (f.data ++ ['(']) ((field.data).map Char.toUpper ++ [')'])
    rwa [List.append_assoc, List.singleton_append] at h
  rw [hpre]
  simp only [if_true]
  have hlen : funcRaw.data.length = f.length := by
    have h := congrArg List.length (upperData funcRaw f hf)
    simpa using h
  have hdrop : ((funcRaw ++ "(" ++ field ++ ")").data).drop (f.length + 1)
      = field.data ++ [')'] := by
    rw [wrappedData,
      show funcRaw.data ++ '(' :: (field.data ++ [')'])
        = (funcRaw.data ++ ['(']) ++ (field.data ++ [')']) by simp,
      show f.length + 1 = (funcRaw.data ++ ['(']).length by simp [hlen]]
    exact List.drop_left _ _
  rw [hdrop, List.reverse_append]
  simp only [List.reverse_cons, List.reverse_nil, List.nil_append, List.singleton_append]
  show (if ((field.data.reverse).reverse).all isDotChar = true
      then some (f, ({ data := (field.data.reverse).reverse } : String)) else none)
    = some (f, field)
  rw [List.reverse_reverse,
    show field.data.all isDotChar = true from List.all_eq_true.mpr (fun c hc => hfield c hc)]
  simp

theorem parseAggWith_miss (g funcRaw field f : String) (hf : upperStr funcRaw = f)
    (hne : (g.data ++ ['(']).isPrefixOf
      (f.data ++ '(' :: ((field.data).map Char.toUpper ++ [')'])) = false) :
    parseAggWith g ((funcRaw ++ "(" ++ field ++ ")").data) = none := by
  unfold parseAggWith
  rw [wrappedUpper funcRaw field f hf, hne]
  simp

theorem parseAgg_wrapped (funcRaw field f : String) (hf : upperStr funcRaw = f)
    (hmem : f ∈ aggFuncs) (hfield : ∀ c ∈ field.data, isDotChar c = true) :
    parseAgg ((funcRaw ++ "(" ++ field ++ ")").data) = some (f, field) := by
  simp only [aggFuncs, List.mem_cons, List.not_mem_nil, or_false] at hmem
  unfold parseAgg aggFuncs
  rcases hmem with h | h | h | h | h <;> subst h
  · exact findSome?_cons_some _ "SUM" ["COUNT", "AVG", "MAX", "MIN"] ("SUM", field)
      (parseAggWith_hit funcRaw field "SUM" hf hfield)
  · exact (findSome?_cons_none _ "SUM" ["COUNT", "AVG", "MAX", "MIN"]
        (parseAggWith_miss "SUM" funcRaw field "COUNT" hf rfl)).trans
      (findSome?_cons_some _ "COUNT" ["AVG", "MAX", "MIN"] ("COUNT", field)
        (parseAggWith_hit funcRaw field "COUNT" hf hfield))
  · exact ((findSome?_cons_none _ "SUM" ["COUNT", "AVG", "MAX", "MIN"]
        (parseAggWith_miss "SUM" funcRaw field "AVG" hf rfl)).trans
      (findSome?_cons_none _ "COUNT" ["AVG", "MAX", "MIN"]
        (parseAggWith_miss "COUNT" funcRaw field "AVG" hf rfl))).trans
      (findSome?_cons_some _ "AVG" ["MAX", "MIN"] ("AVG", field)
        (parseAggWith_hit funcRaw field "AVG" hf hfield))
  · exact (((findSome?_cons_none _ "SUM" ["COUNT", "AVG", "MAX", "MIN"]
        (parseAggWith_miss "SUM" funcRaw field "MAX" hf rfl)).trans
      (findSome?_cons_none _ "COUNT" ["AVG", "MAX", "MIN"]
        (parseAggWith_miss "COUNT" funcRaw field "MAX" hf rfl))).trans
      (findSome?_cons_none _ "AVG" ["MAX", "MIN"]
        (parseAggWith_miss "AVG" funcRaw field "MAX" hf rfl))).trans
      (findSome?_cons_some _ "MAX" ["MIN"] ("MAX", field)
        (parseAggWith_hit funcRaw field "MAX" hf hfield))
  · exact ((((findSome?_cons_none _ "SUM" ["COUNT", "AVG", "MAX", "MIN"]
        (parseAggWith_miss "SUM" funcRaw field "MIN" hf rfl)).trans
      (findSome?_cons_none _ "COUNT" ["AVG", "MAX", "MIN"]
        (parseAggWith_miss "COUNT" funcRaw field "MIN" hf rfl))).trans
      (findSome?_cons_none _ "AVG" ["MAX", "MIN"]
        (parseAggWith_miss "AVG" funcRaw field "MIN" hf rfl))).trans
      (findSome?_cons_none _ "MAX" ["MIN"]
        (parseAggWith_miss "MAX" funcRaw field "MIN" hf rfl))).trans
      (findSome?_cons_some _ "MIN" [] ("MIN", field)
        (parseAggWith_hit funcRaw field "MIN" hf hfield))

/-- C9: `transformColumnName` maps every aggregate-wrapped identifier
`FUNC(field)` (FUNC case-insensitively one of SUM, COUNT, AVG, MAX, MIN) to
the fixed prefix word for FUNC followed by the table translation of the
field (unchanged when absent), and maps every non-wrapped identifier to its
table translation with the same default. -/
theorem C9_transform_column_name (funcRaw field s : String)
    (hfunc : upperStr funcRaw ∈ aggFuncs)
    (hfield : ∀ c ∈ field.data, isDotChar c = true)
    (hbare : parseAgg s.data = none) :
    transformColumnName (funcRaw ++ "(" ++ field ++ ")")
      = prefixWordFor (upperStr funcRaw) ++ tableLookupOr field
    ∧ transformColumnName s = tableLookupOr s := by
  constructor
  · have hmem := hfunc
    simp only [aggFuncs, List.mem_cons, List.not_mem_nil, or_false] at hmem
    unfold transformColumnName
    rcases hmem with h | h | h | h | h <;>
      rw [h, parseAgg_wrapped funcRaw field _ h (by decide) hfield] <;> rfl
  · unfold transformColumnName
    rw [hbare]
    rfl

/-- C9 witness: `SUM(sell_in)` maps to `Total Sell In` and an unknown bare
identifier maps to itself. -/
theorem C9_witness :
    transformColumnName ("SUM" ++ "(" ++ "sell_in" ++ ")") = "Total Sell In"
    ∧ transformColumnName "unknown_col" = "unknown_col" := by
  have h := C9_transform_column_name "SUM" "sell_in" "unknown_col"
    (by decide) (by decide) (by decide)
  exact ⟨h.1.trans (by decide), h.2.trans (by decide)⟩

/-- The opening directive delimiter, as a string. -/
def tagL : String := ⟨['{', '%']⟩

/-- The closing directive delimiter, as a string. -/
def tagR : String := ⟨['%', '}']⟩

/-- The placeholder for a variable name, `{{name}}` with no inner spacing. -/
def phOf (nm : String) : String := ⟨'{' :: '{' :: (nm.data ++ ['}', '}'])⟩

/-- Interleave a separator between the parts (the shape of a template whose
placeholder occurrences are exactly the separator positions). -/
def joinWith (sep : String) : List String → String
  | [] => ""
  | [p] => p
  | p :: p2 :: ps => p ++ sep ++ joinWith sep (p2 :: ps)

/-- Scanner: does the placeholder pattern of `key` match anywhere? -/
def hasPh (key : List Char) : List Char → Bool
  | [] => false
  | c :: cs => (phMatchAt key (c :: cs)).isSome || hasPh key cs

/-- Scanner: does the full if/endif span pattern match anywhere? -/
def hasIfSpan : List Char → Bool
  | [] => false
  | c :: cs => (matchIfFull (c :: cs)).isSome || hasIfSpan cs

/-- Scanner: does an `{% endif %}` tag occur anywhere? -/
def hasEndifTag : List Char → Bool
  | [] => false
  | c :: cs => (endifTagAt (c :: cs)).isSome || hasEndifTag cs

theorem phReplace_id_scan (key v : List Char) :
    ∀ (s : List Char), hasPh key s = false → ∀ fuel, phReplace key v fuel s = s := by
  intro s
  induction s with
  | nil => intro _ fuel; cases fuel <;> rfl
  | cons c cs ih =>
    intro h fuel
    rw [hasPh, Bool.or_eq_false_iff] at h
    have hm : phMatchAt key (c :: cs) = none := by
      cases hmm : phMatchAt key (c :: cs) with
      | none => rfl
      | some r => rw [hmm] at h; simp at h
    cases fuel with
    | zero => rfl
    | succ f => rw [phReplace, hm, ih h.2 f]

theorem processGo_id_scan (vars : Context) :
    ∀ (s : List Char), hasIfSpan s = false → ∀ fuel, processGo vars fuel s = s := by
  intro s
  induction s with
  | nil => intro _ fuel; cases fuel <;> rfl
  | cons c cs ih =>
    intro h fuel
    rw [hasIfSpan, Bool.or_eq_false_iff] at h
    have hm : matchIfFull (c :: cs) = none := by
      cases hmm : matchIfFull (c :: cs) with
      | none => rfl
      | some r => rw [hmm] at h; simp at h
    cases fuel with
    | zero => rfl
    | succ f => rw [processGo, hm, ih h.2 f]

theorem replaceVar_id (key v s : String) (h : hasPh key.data s.data = false) :
    replaceVar key v s = s := by
  unfold replaceVar
  rw [phReplace_id_scan key.data v.data s.data h]

theorem interpolateAll_id (vars : Context) : ∀ (s : String),
    (∀ kv ∈ vars, hasPh kv.1.data s.data = false) → interpolateAll vars s = s := by
  induction vars with
  | nil => intro s _; rfl
  | cons kv rest ih =>
    intro s h
    show List.foldl _ (replaceVar kv.1 (formatValue kv.2) s) rest = s
    rw [replaceVar_id kv.1 _ s (h kv (by simp))]
    exact ih s (fun kv' hkv' => h kv' (by simp [hkv']))

theorem processBlocks_id (t : String) (vars : Context) (h : hasIfSpan t.data = false) :
    processConditionalBlocks t vars = t := by
  unfold processConditionalBlocks
  rw [processGo_id_scan vars t.data h]

theorem render_id (t : String) (vars : Context) (hIf : hasIfSpan t.data = false)
    (hKeys : ∀ kv ∈ vars, hasPh kv.1.data t.data = false) :
    renderJinjaTemplate t vars = t := by
  unfold renderJinjaTemplate
  by_cases ht : t = ""
  · rw [if_pos ht, ht]
  · rw [if_neg ht, processBlocks_id t vars hIf, interpolateAll_id vars t hKeys]

theorem phMatchAt_single (key : List Char) (c : Char) : phMatchAt key [c] = none := rfl

theorem phMatchAt_headNot (key : List Char) (a b : Char) (r : List Char)
    (h : (a == '{' && b == '{') = false) : phMatchAt key (a :: b :: r) = none := by
  simp [phMatchAt, h]

theorem matchIfFull_single (c : Char) : matchIfFull [c] = none := rfl

theorem matchIfFull_headNot (a b : Char) (r : List Char)
    (h : (a == '{' && b == '%') = false) : matchIfFull (a :: b :: r) = none := by
  simp [matchIfFull, tagArgAt, h]

theorem isPrefixOf_exists (a : List Char) : ∀ (b : List Char),
    a.isPrefixOf b = true → ∃ t, b = a ++ t := by
  induction a with
  | nil => intro b _; exact ⟨b, rfl⟩
  | cons x xs ih =>
    intro b h
    cases b with
    | nil => simp [List.isPrefixOf] at h
    | cons y ys =>
      simp only [List.isPrefixOf, Bool.and_eq_true, beq_iff_eq] at h
      obtain ⟨t, ht⟩ := ih ys h.2
      exact ⟨t, by rw [h.1, ht]; rfl⟩

theorem dropWsL_length : ∀ (s : List Char), (dropWsL s).length ≤ s.length := by
  intro s
  induction s with
  | nil => simp [dropWsL]
  | cons c cs ih =>
    rw [dropWsL]
    by_cases h : isWs c = true
    · rw [if_pos h]; simp; omega
    · rw [if_neg h]

theorem wsSuffixes_headNotWs (c : Char) (cs : List Char) (h : isWs c = false) :
    wsSuffixes (c :: cs) = [c :: cs] := by
  simp [wsSuffixes, h]

/-- Core non-interference fact: the placeholder tail matcher for a key `K`
distinct from the placeholder's own name never matches `nm}}…`, provided
either the key has no closing brace or nothing follows the placeholder. -/
theorem phTailMismatch (K nm rest : List Char) (hnm_ne : nm ≠ [])
    (hplain : ∀ c ∈ nm, plainChar c = true) (hne : K ≠ nm)
    (hside : (∀ c ∈ K, c ≠ '}') ∨ rest = []) :
    phTail K (nm ++ '}' :: '}' :: rest) = none := by
  unfold phTail
  by_cases hpre : K.isPrefixOf (nm ++ '}' :: '}' :: rest) = true
  case neg => rw [if_neg hpre]
  case pos =>
    rw [if_pos hpre]
    obtain ⟨t, ht⟩ := isPrefixOf_exists _ _ hpre
    have hdrop : (nm ++ '}' :: '}' :: rest).drop K.length = t := by
      rw [ht]; exact List.drop_left K t
    rw [hdrop]
    have hlen : nm.length + 2 + rest.length = K.length + t.length := by
      have h := congrArg List.length ht
      simp at h; omega
    by_cases hKlt : K.length < nm.length
    · have hKnm : nm.take K.length = K := by
        have h1 : List.take K.length (nm ++ '}' :: '}' :: rest) = List.take K.length nm :=
          List.take_append_of_le_length (le_of_lt hKlt)
        rw [← h1, ht]
        exact List.take_left K t
      have hnmK : nm = K ++ nm.drop K.length := by
        conv_lhs => rw [← List.take_append_drop K.length nm]
        rw [hKnm]
      have ht' : t = nm.drop K.length ++ '}' :: '}' :: rest := by
        have hmid : K ++ t = K ++ (nm.drop K.length ++ '}' :: '}' :: rest) := by
          calc K ++ t = nm ++ '}' :: '}' :: rest := ht.symm
          _ = (K ++ nm.drop K.length) ++ '}' :: '}' :: rest := by rw [← hnmK]
          _ = K ++ (nm.drop K.length ++ '}' :: '}' :: rest) := by rw [List.append_assoc]
        exact List.append_cancel_left hmid
      have hdne : nm.drop K.length ≠ [] := by
        intro hO
        have h2 := congrArg List.length hO
        simp at h2; omega
      rcases hd : nm.drop K.length with _ | ⟨c, u⟩
      · exact absurd hd hdne
      · have hc : c ∈ nm := by
          have h3 : c ∈ nm.drop K.length := by rw [hd]; simp
          exact List.drop_subset _ _ h3
        have hcp := plainFacts c (hplain c hc)
        rw [ht', hd, List.cons_append, dropWsL_cons_notWs c _ hcp.1]
        rcases hu : u ++ '}' :: '}' :: rest with _ | ⟨y, ys⟩
        · have h4 := congrArg List.length hu; simp at h4
        · have hb : (c == '}' && y == '}') = false := by
            have h5 : (c == '}') = false := beq_eq_false_iff_ne.mpr hcp.2.2.2.2.2.1
            simp [h5]
          simp [hb]
    · rcases hside with hK | hrest0
      · by_cases hKeq : K.length = nm.length
        · have h6 : K = nm := (List.append_inj ht.symm hKeq).1
          exact absurd h6 hne
        · have hgt : nm.length < K.length := by omega
          have hsplit : K.take nm.length ++ K.drop nm.length = K := List.take_append_drop _ _
          have hlen2 : (K.take nm.length).length = nm.length := by
            simp [List.length_take]; omega
          have ht2 : nm ++ '}' :: '}' :: rest = K.take nm.length ++ (K.drop nm.length ++ t) := by
            rw [← List.append_assoc, hsplit]; exact ht
          have hinj := List.append_inj ht2 hlen2.symm
          rcases hKd : K.drop nm.length with _ | ⟨c, u⟩
          · have h7 := congrArg List.length hKd; simp at h7; omega
          · have hc : c = '}' := by
              have h8 := hinj.2
              rw [hKd, List.cons_append] at h8
              exact (List.cons_eq_cons.mp h8).1.symm
            have hcK : c ∈ K := by
              have h9 : c ∈ K.drop nm.length := by rw [hKd]; simp
              exact List.drop_subset _ _ h9
            exact absurd hc (hK c hcK)
      · subst hrest0
        have htlen : t.length ≤ 2 := by simp at hlen; omega
        rcases t with _ | ⟨a, _ | ⟨b, u⟩⟩
        · rfl
        · rcases hda : dropWsL [a] with _ | ⟨x, _ | ⟨y, ys⟩⟩
          · rfl
          · rfl
          · have h10 := dropWsL_length [a]
            rw [hda] at h10
            simp at h10
        · have h12 : u.length ≤ 0 := by
            have h13 := htlen
            simp only [List.length_cons] at h13
            omega
          have hu : u = [] := List.eq_nil_of_length_eq_zero (Nat.le_zero.mp h12)
          subst hu
          have hKeq : K.length = nm.length := by simp at hlen; omega
          have h11 : K = nm := (List.append_inj ht.symm hKeq).1
          exact absurd h11 hne

/-- Lift of the mismatch fact to the whole placeholder matcher. -/
theorem phMatchAtMismatch (K nm rest : List Char) (hnm_ne : nm ≠ [])
    (hplain : ∀ c ∈ nm, plainChar c = true) (hne : K ≠ nm)
    (hside : (∀ c ∈ K, c ≠ '}') ∨ rest = []) :
    phMatchAt K ('{' :: '{' :: (nm ++ '}' :: '}' :: rest)) = none := by
  rcases nm with _ | ⟨c0, nm'⟩
  · exact absurd rfl hnm_ne
  · show (wsSuffixes ((c0 :: nm') ++ '}' :: '}' :: rest)).findSome? (phTail K) = none
    rw [List.cons_append,
      wsSuffixes_headNotWs c0 _ (plainFacts c0 (hplain c0 (by simp))).1]
    simp only [List.findSome?]
    rw [← List.cons_append,
      phTailMismatch K (c0 :: nm') rest (by simp) hplain hne hside]

/-- Exact consumption: the placeholder matcher for `K` consumes exactly
`{{K}}` and hands back the remaining input. -/
theorem phMatchAt_hit (K rest : List Char) (hK_ne : K ≠ [])
    (hplain : ∀ c ∈ K, plainChar c = true) :
    phMatchAt K ('{' :: '{' :: (K ++ '}' :: '}' :: rest)) = some rest := by
  rcases K with _ | ⟨k, ks⟩
  · exact absurd rfl hK_ne
  · show (wsSuffixes ((k :: ks) ++ '}' :: '}' :: rest)).findSome? (phTail (k :: ks)) = some rest
    rw [List.cons_append,
      wsSuffixes_headNotWs k _ (plainFacts k (hplain k (by simp))).1]
    simp only [List.findSome?]
    rw [← List.cons_append]
    have hpt : phTail (k :: ks) ((k :: ks) ++ '}' :: '}' :: rest) = some rest := by
      unfold phTail
      rw [if_pos (isPrefixOf_append_self (k :: ks) _), List.drop_left,
        dropWsL_cons_notWs '}' _ (by decide)]
      rfl
    rw [hpt]

theorem str_ext (a b : String) (h : a.data = b.data) : a = b := by
  cases a; cases b
  exact congrArg String.mk h

theorem hasPh_append_noLB (key : List Char) : ∀ (a : List Char),
    (∀ c ∈ a, c ≠ '{') → ∀ b, hasPh key b = false → hasPh key (a ++ b) = false := by
  intro a
  induction a with
  | nil => intro _ b hb; exact hb
  | cons c a' ih =>
    intro ha b hb
    rw [List.cons_append, hasPh]
    have h1 : phMatchAt key (c :: (a' ++ b)) = none := by
      rcases hab : a' ++ b with _ | ⟨y, ys⟩
      · exact phMatchAt_single key c
      · refine phMatchAt_headNot key c y ys ?_
        have h2 : (c == '{') = false := beq_eq_false_iff_ne.mpr (ha c (by simp))
        simp [h2]
    rw [h1]
    simp only [Option.isSome_none, Bool.false_or]
    exact ih (fun x hx => ha x (by simp [hx])) b hb

theorem hasIfSpan_append_noLB : ∀ (a : List Char),
    (∀ c ∈ a, c ≠ '{') → ∀ b, hasIfSpan b = false → hasIfSpan (a ++ b) = false := by
  intro a
  induction a with
  | nil => intro _ b hb; exact hb
  | cons c a' ih =>
    intro ha b hb
    rw [List.cons_append, hasIfSpan]
    have h1 : matchIfFull (c :: (a' ++ b)) = none := by
      rcases hab : a' ++ b with _ | ⟨y, ys⟩
      · exact matchIfFull_single c
      · refine matchIfFull_headNot c y ys ?_
        have h2 : (c == '{') = false := beq_eq_false_iff_ne.mpr (ha c (by simp))
        simp [h2]
    rw [h1]
    simp only [Option.isSome_none, Bool.false_or]
    exact ih (fun x hx => ha x (by simp [hx])) b hb

theorem hasPh_phStep (K nm rest : List Char) (hnm_ne : nm ≠ [])
    (hplain : ∀ c ∈ nm, plainChar c = true) (hne : K ≠ nm)
    (hside : (∀ c ∈ K, c ≠ '}') ∨ rest = [])
    (hrest : hasPh K rest = false) :
    hasPh K ('{' :: '{' :: (nm ++ '}' :: '}' :: rest)) = false := by
  rw [hasPh, phMatchAtMismatch K nm rest hnm_ne hplain hne hside]
  simp only [Option.isSome_none, Bool.false_or]
  rw [hasPh]
  have h1 : phMatchAt K ('{' :: (nm ++ '}' :: '}' :: rest)) = none := by
    rcases nm with _ | ⟨c0, nm'⟩
    · exact absurd rfl hnm_ne
    · rw [List.cons_append]
      refine phMatchAt_headNot K '{' c0 _ ?_
      have h2 : (c0 == '{') = false :=
        beq_eq_false_iff_ne.mpr (plainFacts c0 (hplain c0 (by simp))).2.2.2.2.1
      simp [h2]
  rw [h1]
  simp only [Option.isSome_none, Bool.false_or]
  refine hasPh_append_noLB K nm (fun c hc => (plainFacts c (hplain c hc)).2.2.2.2.1) _ ?_
  rw [hasPh]
  rw [show phMatchAt K ('}' :: '}' :: rest) = none from phMatchAt_headNot K '}' '}' rest rfl]
  simp only [Option.isSome_none, Bool.false_or]
  rw [hasPh]
  have h3 : phMatchAt K ('}' :: rest) = none := by
    rcases rest with _ | ⟨y, ys⟩
    · exact phMatchAt_single K '}'
    · exact phMatchAt_headNot K '}' y ys rfl
  rw [h3]
  simp only [Option.isSome_none, Bool.false_or]
  exact hrest

theorem hasIfSpan_phStep (nm rest : List Char) (hnm_ne : nm ≠ [])
    (hplain : ∀ c ∈ nm, plainChar c = true)
    (hrest : hasIfSpan rest = false) :
    hasIfSpan ('{' :: '{' :: (nm ++ '}' :: '}' :: rest)) = false := by
  rw [hasIfSpan,
    show matchIfFull ('{' :: '{' :: (nm ++ '}' :: '}' :: rest)) = none from
      matchIfFull_headNot '{' '{' _ rfl]
  simp only [Option.isSome_none, Bool.false_or]
  rw [hasIfSpan]
  have h1 : matchIfFull ('{' :: (nm ++ '}' :: '}' :: rest)) = none := by
    rcases nm with _ | ⟨c0, nm'⟩
    · exact absurd rfl hnm_ne
    · rw [List.cons_append]
      refine matchIfFull_headNot '{' c0 _ ?_
      have h2 : (c0 == '%') = false :=
        beq_eq_false_iff_ne.mpr (plainFacts c0 (hplain c0 (by simp))).2.2.2.2.2.2
      simp [h2]
  rw [h1]
  simp only [Option.isSome_none, Bool.false_or]
  refine hasIfSpan_append_noLB nm (fun c hc => (plainFacts c (hplain c hc)).2.2.2.2.1) _ ?_
  rw [hasIfSpan,
    show matchIfFull ('}' :: '}' :: rest) = none from matchIfFull_headNot '}' '}' rest rfl]
  simp only [Option.isSome_none, Bool.false_or]
  rw [hasIfSpan]
  have h3 : matchIfFull ('}' :: rest) = none := by
    rcases rest with _ | ⟨y, ys⟩
    · exact matchIfFull_single '}'
    · exact matchIfFull_headNot '}' y ys rfl
  rw [h3]
  simp only [Option.isSome_none, Bool.false_or]
  exact hrest

/-- C3 amended: a placeholder whose name is bound by no context key — and
which survives conditional-block reduction, here a template that is exactly
the placeholder — renders verbatim, for every context. -/
theorem C3_unknown_placeholder_verbatim (nm : String) (vars : Context)
    (hnm : nm.data ≠ []) (hplain : ∀ c ∈ nm.data, plainChar c = true)
    (habs : ∀ kv ∈ vars, kv.1 ≠ nm) :
    renderJinjaTemplate (phOf nm) vars = phOf nm := by
  refine render_id (phOf nm) vars ?_ ?_
  · show hasIfSpan ('{' :: '{' :: (nm.data ++ ['}', '}'])) = false
    exact hasIfSpan_phStep nm.data [] hnm hplain rfl
  · intro kv hkv
    show hasPh kv.1.data ('{' :: '{' :: (nm.data ++ ['}', '}'])) = false
    refine hasPh_phStep kv.1.data nm.data [] hnm hplain ?_ (Or.inr rfl) rfl
    intro h
    exact habs kv hkv (str_ext kv.1 nm h)

/-- C3 counterexample: a placeholder with an unbound name placed inside a
conditional branch is discarded with the branch, not left verbatim — the
render of `{% if x %}{{u}}{% endif %}` under the empty context is empty. -/
theorem C3_counterexample :
    renderJinjaTemplate (tagL ++ " if x " ++ tagR ++ phOf "u" ++ tagL ++ " endif " ++ tagR) [] = ""
    ∧ ("" : String) ≠ phOf "u"
    ∧ ¬ List.IsInfix (phOf "u").data
        (renderJinjaTemplate (tagL ++ " if x " ++ tagR ++ phOf "u" ++ tagL ++ " endif " ++ tagR) []).data := by
  refine ⟨by decide, by decide, by decide⟩

/-- C3 witness: the render of `{{unknown_var}}` under the empty context is
`{{unknown_var}}` unchanged. -/
theorem C3_witness :
    renderJinjaTemplate (phOf "unknown_var") [] = phOf "unknown_var" :=
  C3_unknown_placeholder_verbatim "unknown_var" [] (by decide) (by decide) (by simp)

/-- C8: a template in which no complete if/endif span matches and no
placeholder of any context key matches renders to itself, for every
context. -/
theorem C8_no_marker_fixed_point (t : String) (vars : Context)
    (hIf : hasIfSpan t.data = false)
    (hKeys : ∀ kv ∈ vars, hasPh kv.1.data t.data = false) :
    renderJinjaTemplate t vars = t :=
  render_id t vars hIf hKeys

/-- C8 witness: a plain text template under a nonempty context renders to
itself. -/
theorem C8_witness :
    renderJinjaTemplate "Hello World" [("row_count", Value.vNum 3)] = "Hello World" :=
  C8_no_marker_fixed_point "Hello World" [("row_count", Value.vNum 3)] (by decide) (by decide)

/-- List-level form of `joinWith`. -/
def joinL (sep : List Char) : List (List Char) → List Char
  | [] => []
  | [p] => p
  | p :: p2 :: ps => p ++ sep ++ joinL sep (p2 :: ps)

theorem joinWith_data (sep : String) : ∀ (parts : List String),
    (joinWith sep parts).data = joinL sep.data (parts.map String.data) := by
  intro parts
  induction parts with
  | nil => rfl
  | cons p parts' ih =>
    rcases parts' with _ | ⟨p2, ps⟩
    · rfl
    · show (p ++ sep ++ joinWith sep (p2 :: ps)).data = _
      rw [data_append, data_append, ih]
      rfl

theorem hasPh_of_noLB (K s : List Char) (h : ∀ c ∈ s, c ≠ '{') : hasPh K s = false := by
  have h1 := hasPh_append_noLB K s h [] rfl
  rwa [List.append_nil] at h1

theorem hasIfSpan_of_noLB (s : List Char) (h : ∀ c ∈ s, c ≠ '{') : hasIfSpan s = false := by
  have h1 := hasIfSpan_append_noLB s h [] rfl
  rwa [List.append_nil] at h1

theorem joinL_split (sep : List Char) (p p2 : List Char) (ps : List (List Char)) :
    joinL sep (p :: p2 :: ps) = p ++ (sep ++ joinL sep (p2 :: ps)) := by
  show p ++ sep ++ joinL sep (p2 :: ps) = _
  rw [List.append_assoc]

theorem phSep_cons (nm J : List Char) :
    ('{' :: '{' :: (nm ++ ['}', '}'])) ++ J = '{' :: '{' :: (nm ++ '}' :: '}' :: J) := by
  simp

theorem joinL_noLB (v : List Char) (hv : ∀ c ∈ v, c ≠ '{') :
    ∀ (parts : List (List Char)), (∀ p ∈ parts, ∀ c ∈ p, c ≠ '{') →
    ∀ c ∈ joinL v parts, c ≠ '{' := by
  intro parts
  induction parts with
  | nil => intro _ c hc; simp [joinL] at hc
  | cons p parts' ih =>
    intro hp c hc
    rcases parts' with _ | ⟨p2, ps⟩
    · exact hp p (by simp) c hc
    · rw [joinL_split] at hc
      simp only [List.mem_append] at hc
      rcases hc with hc | hc | hc
      · exact hp p (by simp) c hc
      · exact hv c hc
      · exact ih (fun q hq => hp q (by simp [hq])) c hc

theorem hasIfSpan_joinL (nm : List Char) (hnm_ne : nm ≠ [])
    (hplain : ∀ c ∈ nm, plainChar c = true) :
    ∀ (parts : List (List Char)), (∀ p ∈ parts, ∀ c ∈ p, c ≠ '{') →
    hasIfSpan (joinL ('{' :: '{' :: (nm ++ ['}', '}'])) parts) = false := by
  intro parts
  induction parts with
  | nil => intro _; rfl
  | cons p parts' ih =>
    intro hp
    rcases parts' with _ | ⟨p2, ps⟩
    · exact hasIfSpan_of_noLB p (hp p (by simp))
    · rw [joinL_split, phSep_cons]
      refine hasIfSpan_append_noLB p (hp p (by simp)) _ ?_
      exact hasIfSpan_phStep nm _ hnm_ne hplain (ih (fun q hq => hp q (by simp [hq])))

theorem hasPh_joinL (K nm : List Char) (hnm_ne : nm ≠ [])
    (hplain : ∀ c ∈ nm, plainChar c = true) (hne : K ≠ nm)
    (hKside : (∀ c ∈ K, c ≠ '}')) :
    ∀ (parts : List (List Char)), (∀ p ∈ parts, ∀ c ∈ p, c ≠ '{') →
    hasPh K (joinL ('{' :: '{' :: (nm ++ ['}', '}'])) parts) = false := by
  intro parts
  induction parts with
  | nil => intro _; rfl
  | cons p parts' ih =>
    intro hp
    rcases parts' with _ | ⟨p2, ps⟩
    · exact hasPh_of_noLB K p (hp p (by simp))
    · rw [joinL_split, phSep_cons]
      refine hasPh_append_noLB K p (hp p (by simp)) _ ?_
      exact hasPh_phStep K nm _ hnm_ne hplain hne (Or.inl hKside)
        (ih (fun q hq => hp q (by simp [hq])))

theorem phReplace_append_noLB (key v : List Char) : ∀ (a : List Char),
    (∀ c ∈ a, c ≠ '{') → ∀ b fuel,
    phReplace key v (a.length + fuel) (a ++ b) = a ++ phReplace key v fuel b := by
  intro a
  induction a with
  | nil => intro _ b fuel; simp
  | cons c a' ih =>
    intro ha b fuel
    rw [List.cons_append,
      show (c :: a').length + fuel = (a'.length + fuel) + 1 by simp [List.length_cons]; omega,
      phReplace]
    have h1 : phMatchAt key (c :: (a' ++ b)) = none := by
      rcases hab : a' ++ b with _ | ⟨y, ys⟩
      · exact phMatchAt_single key c
      · refine phMatchAt_headNot key c y ys ?_
        have h2 : (c == '{') = false := beq_eq_false_iff_ne.mpr (ha c (by simp))
        simp [h2]
    rw [h1, ih (fun x hx => ha x (by simp [hx])) b fuel]
    rfl

theorem phReplace_hit_step (K v rest : List Char) (hK_ne : K ≠ [])
    (hplain : ∀ c ∈ K, plainChar c = true) (fuel : Nat) :
    phReplace K v (fuel + 1) ('{' :: '{' :: (K ++ '}' :: '}' :: rest))
      = v ++ phReplace K v fuel rest := by
  rw [phReplace, phMatchAt_hit K rest hK_ne hplain]

theorem phReplace_joinL (K v : List Char) (hK_ne : K ≠ [])
    (hplain : ∀ c ∈ K, plainChar c = true) :
    ∀ (parts : List (List Char)), (∀ p ∈ parts, ∀ c ∈ p, c ≠ '{') →
    ∀ extra, phReplace K v ((joinL ('{' :: '{' :: (K ++ ['}', '}'])) parts).length + extra)
      (joinL ('{' :: '{' :: (K ++ ['}', '}'])) parts) = joinL v parts := by
  intro parts
  induction parts with
  | nil =>
    intro _ extra
    show phReplace K v (List.length [] + extra) [] = []
    rw [List.length_nil, Nat.zero_add]
    cases extra <;> rfl
  | cons p parts' ih =>
    intro hp extra
    rcases parts' with _ | ⟨p2, ps⟩
    · exact phReplace_id_scan K v p (hasPh_of_noLB K p (hp p (by simp))) _
    · have hrec := ih (fun q hq => hp q (by simp [hq]))
      rw [joinL_split, phSep_cons,
        show joinL v (p :: p2 :: ps) = p ++ (v ++ joinL v (p2 :: ps)) from joinL_split v p p2 ps]
      have hfuel : (p ++ '{' :: '{' :: (K ++ '}' :: '}' :: joinL ('{' :: '{' :: (K ++ ['}', '}'])) (p2 :: ps))).length + extra
          = p.length + (((joinL ('{' :: '{' :: (K ++ ['}', '}'])) (p2 :: ps)).length + (K.length + 3 + extra)) + 1) := by
        simp [List.length_append, List.length_cons]
        omega
      rw [hfuel, phReplace_append_noLB K v p (hp p (by simp)),
        phReplace_hit_step K v _ hK_ne hplain,
        hrec (K.length + 3 + extra)]

/-- C7: with both `sum` and `sum_total` bound in the context (`sum_total`
first bound where shown), a template whose placeholder occurrences are
exactly the `{{sum_total}}` positions renders with every occurrence replaced
by the formatted value of `sum_total`; no pass — in particular the pass for
the literal-prefix key `sum` — rewrites any part of those placeholders. -/
theorem C7_prefix_key_no_corruption (parts : List String) (pre post : Context) (v : Value)
    (hparts : ∀ p ∈ parts, ∀ c ∈ p.data, c ≠ '{')
    (hpre : ∀ kv ∈ pre, (∀ c ∈ kv.1.data, plainChar c = true) ∧ kv.1 ≠ "sum_total")
    (hsum : "sum" ∈ (pre ++ ("sum_total", v) :: post).map Prod.fst)
    (hv : ∀ c ∈ (formatValue v).data, c ≠ '{') :
    renderJinjaTemplate (joinWith (phOf "sum_total") parts) (pre ++ ("sum_total", v) :: post)
      = joinWith (formatValue v) parts := by
  have hpd : ∀ p ∈ parts.map String.data, ∀ c ∈ p, c ≠ '{' := by
    intro p hp c hc
    obtain ⟨q, hq, rfl⟩ := List.mem_map.mp hp
    exact hparts q hq c hc
  unfold renderJinjaTemplate
  by_cases hT : joinWith (phOf "sum_total") parts = ""
  · rw [if_pos hT]
    rcases parts with _ | ⟨p, _ | ⟨p2, ps⟩⟩
    · rfl
    · exact hT.symm
    · exfalso
      have h2 : (joinWith (phOf "sum_total") (p :: p2 :: ps)).data
          = p.data ++ (('{' :: '{' :: ("sum_total".data ++ ['}', '}']))
            ++ joinL ('{' :: '{' :: ("sum_total".data ++ ['}', '}'])) (p2.data :: (ps.map String.data))) := by
        rw [joinWith_data]
        exact joinL_split _ _ _ _
      rw [hT] at h2
      have h3 := congrArg List.length h2
      simp [List.length_append] at h3
      omega
  · rw [if_neg hT]
    have hproc : processConditionalBlocks (joinWith (phOf "sum_total") parts)
        (pre ++ ("sum_total", v) :: post) = joinWith (phOf "sum_total") parts := by
      refine processBlocks_id _ _ ?_
      rw [joinWith_data]
      exact hasIfSpan_joinL "sum_total".data (by decide) (by decide) _ hpd
    rw [hproc]
    have hpre_keys : ∀ kv ∈ pre, hasPh kv.1.data (joinWith (phOf "sum_total") parts).data = false := by
      intro kv hkv
      rw [joinWith_data]
      refine hasPh_joinL kv.1.data "sum_total".data (by decide) (by decide) ?_ ?_ _ hpd
      · intro h
        exact (hpre kv hkv).2 (str_ext _ _ h)
      · intro c hc
        exact (plainFacts c ((hpre kv hkv).1 c hc)).2.2.2.2.2.1
    have hpre_id := interpolateAll_id pre (joinWith (phOf "sum_total") parts) hpre_keys
    have hrepl : replaceVar "sum_total" (formatValue v) (joinWith (phOf "sum_total") parts)
        = joinWith (formatValue v) parts := by
      refine str_ext _ _ ?_
      show phReplace "sum_total".data (formatValue v).data
        (joinWith (phOf "sum_total") parts).data.length
        (joinWith (phOf "sum_total") parts).data = (joinWith (formatValue v) parts).data
      rw [joinWith_data, joinWith_data]
      have h4 := phReplace_joinL "sum_total".data (formatValue v).data (by decide) (by decide)
        (parts.map String.data) hpd 0
      rwa [Nat.add_zero] at h4
    have hpost_keys : ∀ kv ∈ post, hasPh kv.1.data (joinWith (formatValue v) parts).data = false := by
      intro kv hkv
      rw [joinWith_data]
      exact hasPh_of_noLB _ _ (joinL_noLB (formatValue v).data hv _ hpd)
    have hpost_id := interpolateAll_id post (joinWith (formatValue v) parts) hpost_keys
    show interpolateAll (pre ++ ("sum_total", v) :: post) (joinWith (phOf "sum_total") parts) = _
    unfold interpolateAll
    rw [List.foldl_append,
      show List.foldl (fun acc kv => replaceVar kv.1 (formatValue kv.2) acc)
          (joinWith (phOf "sum_total") parts) pre = joinWith (phOf "sum_total") parts from hpre_id,
      List.foldl_cons, hrepl]
    exact hpost_id

/-- C7 witness: `A {{sum_total}} B` with both `sum` and `sum_total` bound
renders the formatted `sum_total` value, uncorrupted. -/
theorem C7_witness :
    renderJinjaTemplate (joinWith (phOf "sum_total") ["A ", " B"])
      [("sum", Value.vNum 7), ("sum_total", Value.vNum 1234)] = "A 1,234 B" :=
  (C7_prefix_key_no_corruption ["A ", " B"] [("sum", Value.vNum 7)] [] (Value.vNum 1234)
    (by decide) (by decide) (by decide) (by decide)).trans (by decide)

theorem lookup_append (k : String) (l1 l2 : List (String × Value)) :
    List.lookup k (l1 ++ l2)
      = ((List.lookup k l1).orElse (fun _ => List.lookup k l2)) := by
  induction l1 with
  | nil => rfl
  | cons a l1 ih =>
    obtain ⟨a1, a2⟩ := a
    cases h : (k == a1) <;> simp [List.lookup, h, ih]

theorem lookup_none_of_keys (k : String) (l : List (String × Value))
    (h : ∀ kv ∈ l, kv.1 ≠ k) : List.lookup k l = none := by
  induction l with
  | nil => rfl
  | cons a l ih =>
    obtain ⟨a1, a2⟩ := a
    have h1 : (k == a1) = false := by
      refine beq_eq_false_iff_ne.mpr ?_
      intro he
      exact h (a1, a2) (by simp) he.symm
    have h2 : List.lookup k ((a1, a2) :: l) = List.lookup k l := by
      simp [List.lookup, h1]
    rw [h2]
    exact ih (fun kv hkv => h kv (by simp [hkv]))

/-- The tail of the built variable bag after the fixed keys and the column
statistics: the metric entries and the first/last column values. -/
def statTail (col : DataColumnMeta) (data : List RowRec)
    (useMetric : Bool) (metrics : Option (List String)) : Context :=
  (match useMetric, metrics with
   | true, some ms => [("metrics", Value.vArr (ms.map Prim.pStr)),
                       ("metric_count", Value.vNum (ms.length : ℚ))]
   | _, _ => [])
  ++ (if rowGet (match data.head? with | some r => r | none => []) col.key ≠ Prim.pUndef then
       [("first_value", primToValue (rowGet (match data.head? with | some r => r | none => []) col.key))]
      else [])
  ++ (if rowGet (match data.getLast? with | some r => r | none => []) col.key ≠ Prim.pUndef then
       [("last_value", primToValue (rowGet (match data.getLast? with | some r => r | none => []) col.key))]
      else [])

theorem statTail_keys (col : DataColumnMeta) (data : List RowRec)
    (useMetric : Bool) (metrics : Option (List String)) :
    ∀ kv ∈ statTail col data useMetric metrics,
      kv.1 = "metrics" ∨ kv.1 = "metric_count" ∨ kv.1 = "first_value" ∨ kv.1 = "last_value" := by
  intro kv hkv
  unfold statTail at hkv
  simp only [List.mem_append] at hkv
  rcases hkv with (h | h) | h
  · rcases useMetric <;> rcases metrics <;> simp at h <;>
      rcases h with h | h <;> simp [h]
  · by_cases hc : rowGet (match data.head? with | some r => r | none => []) col.key ≠ Prim.pUndef
    · rw [if_pos hc] at h
      simp at h
      simp [h]
    · rw [if_neg hc] at h
      simp at h
  · by_cases hc : rowGet (match data.getLast? with | some r => r | none => []) col.key ≠ Prim.pUndef
    · rw [if_pos hc] at h
      simp at h
      simp [h]
    · rw [if_neg hc] at h
      simp at h

theorem buildVars_decomp (col : DataColumnMeta) (data : List RowRec)
    (useMetric : Bool) (metrics : Option (List String)) :
    buildColumnVariables col data useMetric metrics
      = ([("column_name", Value.vStr col.label),
          ("original_label", Value.vStr (jsOrStr col.originalLabel col.label)),
          ("key", Value.vStr col.key),
          ("data_type", Value.vStr col.dataType),
          ("row_count", Value.vNum (data.length : ℚ)),
          ("first_row", Value.vRecord (match data.head? with | some r => r | none => [])),
          ("last_row", Value.vRecord (match data.getLast? with | some r => r | none => [])),
          ("data", Value.vRows data),
          ("is_metric", Value.vBool col.isMetric),
          ("is_percent_metric", Value.vBool col.isPercentMetric),
          ("is_numeric", Value.vBool col.isNumeric)]
         ++ columnMetricsOf col data) ++ statTail col data useMetric metrics := by
  unfold buildColumnVariables statTail
  simp [List.append_assoc]

theorem columnDataOf_notEmpty (col : DataColumnMeta) (data : List RowRec)
    (h : numericDataOf col data ≠ []) : (columnDataOf col data).isEmpty = false := by
  cases hcd : columnDataOf col data with
  | nil =>
    exfalso
    apply h
    unfold numericDataOf
    rw [hcd]
    rfl
  | cons p ps => rfl

theorem columnMetricsOf_eq (col : DataColumnMeta) (data : List RowRec) :
    columnMetricsOf col data
      = if col.isNumeric = true ∧ numericDataOf col data ≠ [] then
          [("sum", Value.vNum ((numericDataOf col data).foldl (· + ·) 0)),
           ("avg", Value.vNum (((numericDataOf col data).foldl (· + ·) 0)
             / ((numericDataOf col data).length : ℚ))),
           ("min", Value.vNum (foldMin (numericDataOf col data))),
           ("max", Value.vNum (foldMax (numericDataOf col data))),
           ("count", Value.vNum ((numericDataOf col data).length : ℚ))]
        else [] := by
  by_cases h1 : col.isNumeric = true
  · by_cases h2 : numericDataOf col data = []
    · rw [if_neg (by rintro ⟨_, hne⟩; exact hne h2)]
      unfold columnMetricsOf
      by_cases h3 : (col.isNumeric && !(columnDataOf col data).isEmpty) = true
      · rw [if_pos h3]
        simp [h2]
      · rw [if_neg h3]
    · have h3 := columnDataOf_notEmpty col data h2
      have h4 : (numericDataOf col data).isEmpty = false := by
        cases hnd : numericDataOf col data with
        | nil => exact absurd hnd h2
        | cons p ps => rfl
      rw [if_pos ⟨h1, h2⟩]
      unfold columnMetricsOf
      rw [if_pos (by rw [h1, h3]; rfl)]
      simp [h4]
  · have h1' : col.isNumeric = false := by
      revert h1; cases col.isNumeric <;> simp
    rw [if_neg (by rintro ⟨ha, _⟩; rw [h1'] at ha; exact Bool.false_ne_true ha)]
    unfold columnMetricsOf
    rw [if_neg (by rw [h1']; simp)]

theorem lookup_build_stats (col : DataColumnMeta) (data : List RowRec)
    (useMetric : Bool) (metrics : Option (List String)) (k : String)
    (hk : k = "sum" ∨ k = "avg" ∨ k = "min" ∨ k = "max" ∨ k = "count") :
    List.lookup k (buildColumnVariables col data useMetric metrics)
      = List.lookup k (columnMetricsOf col data) := by
  rw [buildVars_decomp, lookup_append, lookup_append]
  have hF : List.lookup k
      ([("column_name", Value.vStr col.label),
        ("original_label", Value.vStr (jsOrStr col.originalLabel col.label)),
        ("key", Value.vStr col.key),
        ("data_type", Value.vStr col.dataType),
        ("row_count", Value.vNum (data.length : ℚ)),
        ("first_row", Value.vRecord (match data.head? with | some r => r | none => [])),
        ("last_row", Value.vRecord (match data.getLast? with | some r => r | none => [])),
        ("data", Value.vRows data),
        ("is_metric", Value.vBool col.isMetric),
        ("is_percent_metric", Value.vBool col.isPercentMetric),
        ("is_numeric", Value.vBool col.isNumeric)] : Context) = none := by
    rcases hk with rfl | rfl | rfl | rfl | rfl <;> rfl
  have hT : List.lookup k (statTail col data useMetric metrics) = none := by
    refine lookup_none_of_keys k _ ?_
    intro kv hkv
    have h := statTail_keys col data useMetric metrics kv hkv
    rcases hk with rfl | rfl | rfl | rfl | rfl <;>
      rcases h with h | h | h | h <;> simp [h]
  rw [hF, hT]
  cases List.lookup k (columnMetricsOf col data) <;> rfl

/-- C4 amended: the Context Builder adds the statistics keys sum, avg, min,
max, count if and only if the column is flagged numeric AND has at least one
non-null numeric entry; the values are computed over exactly the non-null
numeric entries; when the guard fails the keys are entirely absent (never
defaulted) and a `{{sum}}` template renders literally. -/
theorem C4_statistics_presence (col : DataColumnMeta) (data : List RowRec)
    (useMetric : Bool) (metrics : Option (List String)) :
    (∀ k ∈ (["sum", "avg", "min", "max", "count"] : List String),
        ((List.lookup k (buildColumnVariables col data useMetric metrics)).isSome = true
          ↔ (col.isNumeric = true ∧ numericDataOf col data ≠ [])))
    ∧ (col.isNumeric = true → numericDataOf col data ≠ [] →
        List.lookup "sum" (buildColumnVariables col data useMetric metrics)
          = some (Value.vNum ((numericDataOf col data).foldl (· + ·) 0))
        ∧ List.lookup "avg" (buildColumnVariables col data useMetric metrics)
          = some (Value.vNum (((numericDataOf col data).foldl (· + ·) 0)
              / ((numericDataOf col data).length : ℚ)))
        ∧ List.lookup "min" (buildColumnVariables col data useMetric metrics)
          = some (Value.vNum (foldMin (numericDataOf col data)))
        ∧ List.lookup "max" (buildColumnVariables col data useMetric metrics)
          = some (Value.vNum (foldMax (numericDataOf col data)))
        ∧ List.lookup "count" (buildColumnVariables col data useMetric metrics)
          = some (Value.vNum ((numericDataOf col data).length : ℚ)))
    ∧ (¬(col.isNumeric = true ∧ numericDataOf col data ≠ []) →
        (∀ k ∈ (["sum", "avg", "min", "max", "count"] : List String),
          List.lookup k (buildColumnVariables col data useMetric metrics) = none)
        ∧ generateDynamicColumnName col data (phOf "sum") useMetric metrics = phOf "sum") := by
  refine ⟨?_, ?_, ?_⟩
  · intro k hk
    have hk' : k = "sum" ∨ k = "avg" ∨ k = "min" ∨ k = "max" ∨ k = "count" := by
      simpa using hk
    rw [lookup_build_stats col data useMetric metrics k hk', columnMetricsOf_eq]
    by_cases h : col.isNumeric = true ∧ numericDataOf col data ≠ []
    · rw [if_pos h]
      constructor
      · intro _; exact h
      · intro _
        rcases hk' with rfl | rfl | rfl | rfl | rfl <;> rfl
    · rw [if_neg h]
      simp [List.lookup, h]
  · intro h1 h2
    refine ⟨?_, ?_, ?_, ?_, ?_⟩ <;>
      rw [lookup_build_stats col data useMetric metrics _ (by simp),
        columnMetricsOf_eq, if_pos ⟨h1, h2⟩] <;> rfl
  · intro h
    constructor
    · intro k hk
      have hk' : k = "sum" ∨ k = "avg" ∨ k = "min" ∨ k = "max" ∨ k = "count" := by
        simpa using hk
      rw [lookup_build_stats col data useMetric metrics k hk', columnMetricsOf_eq, if_neg h]
      rfl
    · unfold generateDynamicColumnName
      rw [if_neg (by decide : ¬(phOf "sum") = "")]
      unfold renderJinjaTemplateDoc
      rw [if_neg (by decide : ¬(phOf "sum") = "")]
      refine interpolateAll_id _ _ ?_
      intro kv hkv
      rw [buildVars_decomp] at hkv
      simp only [List.mem_append] at hkv
      rcases hkv with (hfix | hcm) | htail
      · simp only [List.mem_cons, List.not_mem_nil, or_false] at hfix
        rcases hfix with rfl | rfl | rfl | rfl | rfl | rfl | rfl | rfl | rfl | rfl | rfl <;> rfl
      · rw [columnMetricsOf_eq, if_neg h] at hcm
        simp at hcm
      · have h4 := statTail_keys col data useMetric metrics kv htail
        rcases h4 with h4 | h4 | h4 | h4 <;> rw [h4] <;> decide

/-- C4 counterexample: a column not flagged numeric whose data does contain
a non-null numeric entry gets no `sum` key, contradicting the claim's
unconditional iff. -/
theorem C4_counterexample :
    numericDataOf ⟨"k", "K", none, "BIGINT", false, false, false⟩ [[("k", Prim.pNum 1)]]
      = [(1 : ℚ)]
    ∧ List.lookup "sum" (buildColumnVariables ⟨"k", "K", none, "BIGINT", false, false, false⟩
        [[("k", Prim.pNum 1)]] false none) = none := ⟨by decide, by decide⟩

/-- C4 witness: a numeric column with entries 1 and 2 gets `sum = 3`, and a
non-numeric column renders `{{sum}}` literally. -/
theorem C4_witness :
    List.lookup "sum" (buildColumnVariables ⟨"k", "K", none, "BIGINT", true, false, false⟩
        [[("k", Prim.pNum 1)], [("k", Prim.pNum 2)]] false none) = some (Value.vNum 3)
    ∧ generateDynamicColumnName ⟨"k", "K", none, "BIGINT", false, false, false⟩
        [[("k", Prim.pNum 1)]] (phOf "sum") false none = phOf "sum" := by
  constructor
  · have h := (C4_statistics_presence ⟨"k", "K", none, "BIGINT", true, false, false⟩
      [[("k", Prim.pNum 1)], [("k", Prim.pNum 2)]] false none).2.1 (by decide) (by decide)
    refine h.1.trans ?_
    have hnd : numericDataOf ⟨"k", "K", none, "BIGINT", true, false, false⟩
        [[("k", Prim.pNum 1)], [("k", Prim.pNum 2)]] = [(1 : ℚ), 2] := by decide
    rw [hnd]
    norm_num
  · exact ((C4_statistics_presence ⟨"k", "K", none, "BIGINT", false, false, false⟩
      [[("k", Prim.pNum 1)]] false none).2.2 (by decide)).2

/-- A list is a suffix of itself with two characters prepended. -/
theorem suffix_cons2 (a b : Char) (r : List Char) : r <:+ a :: b :: r := ⟨[a, b], rfl⟩

/-- Dropping leading whitespace yields a suffix. -/
theorem dropWsL_suffix : ∀ (s : List Char), dropWsL s <:+ s := by
  intro s
  induction s with
  | nil => exact List.suffix_refl []
  | cons c cs ih =>
    rw [dropWsL]
    by_cases h : isWs c = true
    · rw [if_pos h]
      exact ih.trans (List.suffix_cons c cs)
    · rw [if_neg h]

/-- The remainder returned by a successful directive-head match is a suffix of
the input: the matcher only ever consumes characters from the front. -/
theorem tagArgAt_suffix (w : List Char) (s g rest : List Char)
    (h : tagArgAt w s = some (g, rest)) : rest <:+ s := by
  rcases s with _ | ⟨a, _ | ⟨b, r⟩⟩
  · simp [tagArgAt] at h
  · simp [tagArgAt] at h
  · simp only [tagArgAt] at h
    have hch : ∀ (r2 rest2 : List Char) (d e : Char),
        (dropWsL r).drop w.length = r2 →
        r2.dropWhile (fun ch => !(ch == '%' || ch == '}')) = d :: e :: rest2 →
        rest2 <:+ a :: b :: r := by
      intro r2 rest2 d e hr2 heq
      have s1 : rest2 <:+ r2.dropWhile (fun ch => !(ch == '%' || ch == '}')) := by
        rw [heq]; exact suffix_cons2 d e rest2
      have s2 : r2.dropWhile (fun ch => !(ch == '%' || ch == '}')) <:+ r2 :=
        List.dropWhile_suffix _
      have s3 : r2 <:+ dropWsL r := by
        rw [← hr2]; exact List.drop_suffix _ _
      exact s1.trans (s2.trans (s3.trans ((dropWsL_suffix r).trans (suffix_cons2 a b r))))
    repeat' (first | exact Option.noConfusion h | split at h)
    all_goals cases h
    all_goals exact hch _ _ _ _ rfl (by assumption)

/-- An endif-free string has endif-free suffixes. -/
theorem hasEndifTag_append_right : ∀ (u r : List Char),
    hasEndifTag (u ++ r) = false → hasEndifTag r = false := by
  intro u
  induction u with
  | nil => intro r h; exact h
  | cons c cs ih =>
    intro r h
    rw [List.cons_append, hasEndifTag, Bool.or_eq_false_iff] at h
    exact ih r h.2

/-- Without an endif tag anywhere, the lazy interior search fails. -/
theorem findEndif_none_scan : ∀ (s : List Char),
    hasEndifTag s = false → findEndif s = none := by
  intro s
  induction s with
  | nil => intro _; rfl
  | cons c cs ih =>
    intro h
    rw [hasEndifTag, Bool.or_eq_false_iff] at h
    have h1 : endifTagAt (c :: cs) = none := by
      cases he : endifTagAt (c :: cs) with
      | none => rfl
      | some r => rw [he] at h; simp at h
    rw [findEndif, h1, ih h.2]
    rfl

/-- Without an endif tag anywhere, the full span regex cannot match at the
start of the input, even if an if head does. -/
theorem matchIfFull_none_noEndif (s : List Char) (h : hasEndifTag s = false) :
    matchIfFull s = none := by
  cases ht : tagArgAt "if".data s with
  | none => simp only [matchIfFull, ht]
  | some gr =>
    obtain ⟨g, r⟩ := gr
    obtain ⟨u, hu⟩ := tagArgAt_suffix "if".data s g r ht
    have hf := findEndif_none_scan r (hasEndifTag_append_right u r (by rw [hu]; exact h))
    simp only [matchIfFull, ht, hf]

/-- Without an endif tag anywhere, the full span regex matches nowhere. -/
theorem hasIfSpan_noEndif : ∀ (s : List Char),
    hasEndifTag s = false → hasIfSpan s = false := by
  intro s
  induction s with
  | nil => intro _; rfl
  | cons c cs ih =>
    intro h
    have h2 : hasEndifTag cs = false := by
      rw [hasEndifTag, Bool.or_eq_false_iff] at h
      exact h.2
    rw [hasIfSpan, matchIfFull_none_noEndif (c :: cs) h, ih h2]
    rfl

/-- C5: in a template with no `\x7b% endif %\x7d` tag anywhere — in
particular one holding an `\x7b% if ... %\x7d` directive with no matching
endif after it — the conditional span pattern matches nowhere, the block
processor returns the template unchanged, and (when no variable placeholder
matches either, e.g. for keys that do not occur) the whole render leaves the
directive text verbatim. -/
theorem C5_missing_endif_literal (t : String) (vars : Context)
    (hEnd : hasEndifTag t.data = false) :
    hasIfSpan t.data = false
    ∧ processConditionalBlocks t vars = t
    ∧ ((∀ kv ∈ vars, hasPh kv.1.data t.data = false) → renderJinjaTemplate t vars = t) := by
  have hIf := hasIfSpan_noEndif t.data hEnd
  exact ⟨hIf, processBlocks_id t vars hIf, fun hK => render_id t vars hIf hK⟩

/-- C5 witness: `\x7b% if x %\x7dNo data` (endif missing) passes through both
the block processor and the full renderer verbatim, even though `x` is a
truthy context variable. -/
theorem C5_witness :
    processConditionalBlocks (tagL ++ " if x " ++ tagR ++ "No data") [("x", Value.vNum 1)]
      = tagL ++ " if x " ++ tagR ++ "No data"
    ∧ renderJinjaTemplate (tagL ++ " if x " ++ tagR ++ "No data") [("x", Value.vNum 1)]
      = tagL ++ " if x " ++ tagR ++ "No data" := by
  have h := C5_missing_endif_literal (tagL ++ " if x " ++ tagR ++ "No data")
    [("x", Value.vNum 1)] (by decide)
  exact ⟨h.2.1, h.2.2 (by decide)⟩

/-- A condition string usable inside a directive head: nonempty, not starting
or ending in whitespace, and free of `%`, `\x7d` and `\x7b` (the class
`[^%\x7d]+` minus edge whitespace, minus braces so the condition cannot open
a nested tag). -/
def condOk (c : List Char) : Bool :=
  !c.isEmpty && !isWs (c.headD ' ') && !isWs (c.reverse.headD ' ') &&
    c.all (fun ch => !(ch == '%' || ch == '}' || ch == '{'))

/-- A branch body free of `\x7b` and `%`, so it can neither open a directive
tag nor close one early. -/
def bodyOk (b : List Char) : Bool :=
  b.all (fun ch => !(ch == '{' || ch == '%'))

/-- The canonical elif chunk `\x7b% elif c %\x7d` followed by its body. -/
def elifChunkL (c bd : List Char) : List Char :=
  '{' :: '%' :: ' ' :: 'e' :: 'l' :: 'i' :: 'f' :: ' ' :: (c ++ (' ' :: '%' :: '}' :: bd))

/-- The canonical else chunk `\x7b% else %\x7d` followed by its body. -/
def elseChunkL (bd : List Char) : List Char :=
  '{' :: '%' :: ' ' :: 'e' :: 'l' :: 's' :: 'e' :: ' ' :: '%' :: '}' :: bd

/-- The elif chunks of a span, concatenated. -/
def chunksL : List (List Char × List Char) → List Char
  | [] => []
  | (c, bd) :: rest => elifChunkL c bd ++ chunksL rest

/-- The optional else chunk of a span. -/
def elsePartL : Option (List Char) → List Char
  | some b => elseChunkL b
  | none => []

/-- The span interior: if-body, elif chunks, optional else chunk. -/
def interiorL (b1 : List Char) (es : List (List Char × List Char))
    (els : Option (List Char)) : List Char :=
  b1 ++ (chunksL es ++ elsePartL els)

/-- The characters of the closing tag `\x7b% endif %\x7d`. -/
def endifL : List Char := ['{', '%', ' ', 'e', 'n', 'd', 'i', 'f', ' ', '%', '}']

/-- A full canonical conditional span
`\x7b% if c1 %\x7db1\x7b% elif c %\x7db...\x7b% else %\x7db...\x7b% endif %\x7d`. -/
def spanL (c1 b1 : List Char) (es : List (List Char × List Char))
    (els : Option (List Char)) : List Char :=
  '{' :: '%' :: ' ' :: 'i' :: 'f' :: ' ' ::
    (c1 ++ (' ' :: '%' :: '}' :: (interiorL b1 es els ++ endifL)))

/-- The elif matches the `elifRegex` loop finds in the interior: start
offsets with the trimmed conditions. -/
def elifIdxOf : Nat → List (List Char × List Char) → List (Nat × String)
  | _, [] => []
  | p, (c, bd) :: rest => (p, (⟨c⟩ : String)) :: elifIdxOf (p + (11 + c.length + bd.length)) rest

/-- The sorted breakpoint list of the interior: one elif breakpoint per
chunk, then the else breakpoint when present. -/
def bpsOf : Nat → List (List Char × List Char) → Option (List Char) → List (Nat × BPKind)
  | p, [], some _ => [(p, BPKind.elseBP)]
  | _, [], none => []
  | p, (c, bd) :: rest, els =>
    (p, BPKind.elifBP (⟨c⟩ : String)) :: bpsOf (p + (11 + c.length + bd.length)) rest els

/-- The parsed elif/else blocks of the interior, bodies trimmed. -/
def blocksOf (es : List (List Char × List Char)) (els : Option (List Char)) : List JBlock :=
  es.map (fun q => (⟨BlockTy.tElif, some (⟨q.1⟩ : String), (⟨trimL q.2⟩ : String)⟩ : JBlock))
  ++ (match els with
      | some b => [(⟨BlockTy.tElse, none, (⟨trimL b⟩ : String)⟩ : JBlock)]
      | none => [])

/-- The claim's branch-selection semantics on the elif/else part, with the
code's trimming applied to the chosen body. -/
def pickElifs (vars : Context) (els : Option (List Char)) :
    List (List Char × List Char) → String
  | [] => match els with | some b => (⟨trimL b⟩ : String) | none => ""
  | (c, b) :: rest =>
    if evaluateCondition (⟨c⟩ : String) vars then (⟨trimL b⟩ : String)
    else pickElifs vars els rest

/-- The claim's branch-selection semantics for a whole span: the first branch
whose condition evaluates true (conditions checked top-to-bottom), else the
else-branch, else the empty string — each selected body trimmed, which is
where the code diverges from the claim's raw-body wording. -/
def pickBranchL (vars : Context) (c1 b1 : List Char)
    (es : List (List Char × List Char)) (els : Option (List Char)) : String :=
  if evaluateCondition (⟨c1⟩ : String) vars then (⟨trimL b1⟩ : String)
  else pickElifs vars els es

theorem condOk_parts (c : List Char) (h : condOk c = true) :
    c ≠ [] ∧ isWs (c.headD ' ') = false ∧ isWs (c.reverse.headD ' ') = false ∧
      ∀ ch ∈ c, (ch == '%') = false ∧ (ch == '}') = false ∧ (ch == '{') = false := by
  rw [condOk] at h
  simp only [Bool.and_eq_true, Bool.not_eq_true', List.all_eq_true] at h
  obtain ⟨⟨⟨h1, h2⟩, h3⟩, h4⟩ := h
  refine ⟨?_, h2, h3, ?_⟩
  · intro hc
    rw [hc] at h1
    simp at h1
  · intro ch hch
    have := h4 ch hch
    simp only [Bool.or_eq_false_iff] at this
    exact ⟨this.1.1, this.1.2, this.2⟩

theorem bodyOk_parts (b : List Char) (h : bodyOk b = true) :
    ∀ ch ∈ b, (ch == '{') = false ∧ (ch == '%') = false := by
  rw [bodyOk] at h
  simp only [List.all_eq_true] at h
  intro ch hch
  have := h ch hch
  simp only [Bool.not_eq_true', Bool.or_eq_false_iff] at this
  exact this

theorem trim_cond (c : List Char) (h : condOk c = true) : trimL (c ++ [' ']) = c := by
  obtain ⟨hne, hhd, hlast, _⟩ := condOk_parts c h
  have hdw : (c ++ [' ']).dropWhile isWs = c ++ [' '] := by
    rcases hcc : c with _ | ⟨ch, ct⟩
    · exact absurd hcc hne
    · rw [List.cons_append, List.dropWhile_cons]
      rw [hcc] at hhd
      simp only [List.headD] at hhd
      rw [hhd]
      simp
  rcases hr : c.reverse with _ | ⟨rh, rt⟩
  · rw [List.reverse_eq_nil_iff] at hr
    exact absurd hr hne
  have hrh : isWs rh = false := by
    rw [hr] at hlast
    simpa using hlast
  rw [trimL, hdw, List.reverse_append, List.reverse_singleton, List.singleton_append,
    List.dropWhile_cons, if_pos (show isWs ' ' = true by decide), hr,
    List.dropWhile_cons, hrh]
  simp [← hr]

theorem strNeEmpty (c : List Char) (h : c ≠ []) : ((⟨c⟩ : String) != "") = true := by
  rw [bne_iff_ne]
  intro heq
  exact h (congrArg String.data heq)

theorem takeWhile_all_app (P : Char → Bool) : ∀ (u v : List Char), u.all P = true →
    (u ++ v).takeWhile P = u ++ v.takeWhile P := by
  intro u
  induction u with
  | nil => intro v _; rfl
  | cons c cs ih =>
    intro v h
    rw [List.all_cons, Bool.and_eq_true] at h
    rw [List.cons_append, List.takeWhile_cons, if_pos h.1, ih v h.2, List.cons_append]

theorem dropWhile_all_app (P : Char → Bool) : ∀ (u v : List Char), u.all P = true →
    (u ++ v).dropWhile P = v.dropWhile P := by
  intro u
  induction u with
  | nil => intro v _; rfl
  | cons c cs ih =>
    intro v h
    rw [List.all_cons, Bool.and_eq_true] at h
    rw [List.cons_append, List.dropWhile_cons, if_pos h.1, ih v h.2]

theorem tagArgAt_headNe (w : List Char) (c : Char) (cs : List Char)
    (h : (c == '{') = false) : tagArgAt w (c :: cs) = none := by
  cases cs with
  | nil => rfl
  | cons b r => simp [tagArgAt, h]

theorem endifTagAt_headNe (c : Char) (cs : List Char)
    (h : (c == '{') = false) : endifTagAt (c :: cs) = none := by
  cases cs with
  | nil => rfl
  | cons b r => simp [endifTagAt, h]

theorem elseTagAt_headNe (c : Char) (cs : List Char)
    (h : (c == '{') = false) : elseTagAt (c :: cs) = none := by
  cases cs with
  | nil => rfl
  | cons b r => simp [elseTagAt, h]

theorem endifTagAt_elHead (rest : List Char) :
    endifTagAt ('{' :: '%' :: ' ' :: 'e' :: 'l' :: rest) = none := rfl

theorem tagArgAt_elif_elseHead (rest : List Char) :
    tagArgAt "elif".data ('{' :: '%' :: ' ' :: 'e' :: 'l' :: 's' :: rest) = none := rfl

theorem elseTagAt_elifHead (rest : List Char) :
    elseTagAt ('{' :: '%' :: ' ' :: 'e' :: 'l' :: 'i' :: rest) = none := rfl

theorem elseTagAt_elseHead (bd : List Char) :
    elseTagAt ('{' :: '%' :: ' ' :: 'e' :: 'l' :: 's' :: 'e' :: ' ' :: '%' :: '}' :: bd)
      = some bd := rfl

theorem findEndif_endifL : findEndif endifL = some ([], []) := rfl

/-- The canonical hit of the directive-head matcher: `\x7b% word cond %\x7d`
with single spaces captures the condition plus one trailing space and
consumes through the closing `%\x7d`. -/
theorem tagArgAt_canonical (w s c t : List Char)
    (hs : s = '{' :: '%' :: ' ' :: (w ++ (' ' :: (c ++ (' ' :: '%' :: '}' :: t)))))
    (hw : w ≠ []) (hwh : isWs (w.headD ' ') = false) (hc : condOk c = true) :
    tagArgAt w s = some (c ++ [' '], t) := by
  obtain ⟨hcne, hchd, _, hcall⟩ := condOk_parts c hc
  subst hs
  rcases w with _ | ⟨wh, wt⟩
  · exact absurd rfl hw
  simp only [List.headD] at hwh
  rcases hcc : c with _ | ⟨ch, ct⟩
  · exact absurd hcc hcne
  have hchw : isWs ch = false := by
    rw [hcc] at hchd
    simpa using hchd
  rw [← hcc]
  have hallP : (c ++ [' ']).all (fun x => !(x == '%' || x == '}')) = true := by
    rw [List.all_append, Bool.and_eq_true]
    constructor
    · rw [List.all_eq_true]
      intro x hx
      have := hcall x hx
      simp only [Bool.not_eq_true', Bool.or_eq_false_iff]
      exact ⟨this.1, this.2.1⟩
    · decide
  have h1 : dropWsL (' ' :: ((wh :: wt) ++ (' ' :: (c ++ (' ' :: '%' :: '}' :: t)))))
      = (wh :: wt) ++ (' ' :: (c ++ (' ' :: '%' :: '}' :: t))) := by
    rw [dropWsL, if_pos (show isWs ' ' = true by decide), List.cons_append,
      dropWsL_cons_notWs wh _ hwh]
  have h2 : (wh :: wt).isPrefixOf ((wh :: wt) ++ (' ' :: (c ++ (' ' :: '%' :: '}' :: t))))
      = true := isPrefixOf_append_self _ _
  have h3 : ((wh :: wt) ++ (' ' :: (c ++ (' ' :: '%' :: '}' :: t)))).drop (wh :: wt).length
      = ' ' :: (c ++ (' ' :: '%' :: '}' :: t)) := List.drop_left _ _
  have hsplit : c ++ (' ' :: '%' :: '}' :: t) = (c ++ [' ']) ++ ('%' :: '}' :: t) := by simp
  have h5 : (' ' :: (c ++ (' ' :: '%' :: '}' :: t))).takeWhile (fun x => !(x == '%' || x == '}'))
      = ' ' :: (c ++ [' ']) := by
    rw [List.takeWhile_cons, if_pos (by decide), hsplit,
      takeWhile_all_app _ _ _ hallP, List.takeWhile_cons, if_neg (by decide)]
    simp
  have h6 : (' ' :: (c ++ (' ' :: '%' :: '}' :: t))).dropWhile (fun x => !(x == '%' || x == '}'))
      = '%' :: '}' :: t := by
    rw [List.dropWhile_cons, if_pos (by decide), hsplit,
      dropWhile_all_app _ _ _ hallP, List.dropWhile_cons, if_neg (by decide)]
  have h7 : (' ' :: (c ++ [' '])).dropWhile isWs = c ++ [' '] := by
    rw [List.dropWhile_cons, if_pos (by decide), hcc, List.cons_append,
      List.dropWhile_cons, hchw]
    simp [← hcc]
  have h8 : (c ++ [' ']).isEmpty = false := by
    rw [hcc, List.cons_append]
    rfl
  have h0 : ('{' == '{' && '%' == '%') = true := rfl
  have h4 : isWs ' ' = true := rfl
  have h9 : ('%' == '%' && '}' == '}') = true := rfl
  simp only [tagArgAt, h0, h1, h2, h3, h4, h5, h6, h7, h8, h9, eq_self_iff_true, if_true,
    Bool.false_eq_true, if_false]

theorem condOk_noBrace (c : List Char) (h : condOk c = true) :
    c.all (fun ch => !(ch == '{')) = true := by
  obtain ⟨_, _, _, h4⟩ := condOk_parts c h
  rw [List.all_eq_true]
  intro ch hch
  simp only [Bool.not_eq_true']
  exact (h4 ch hch).2.2

theorem bodyOk_noBrace (b : List Char) (h : bodyOk b = true) :
    b.all (fun ch => !(ch == '{')) = true := by
  have h4 := bodyOk_parts b h
  rw [List.all_eq_true]
  intro ch hch
  simp only [Bool.not_eq_true']
  exact (h4 ch hch).1

theorem findEndif_cons_none (c : Char) (cs : List Char) (h : endifTagAt (c :: cs) = none) :
    findEndif (c :: cs) = (findEndif cs).map (fun pr => (c :: pr.1, pr.2)) := by
  rw [findEndif, h]

theorem findEndif_skip_noBrace : ∀ (u v : List Char),
    u.all (fun ch => !(ch == '{')) = true →
    findEndif (u ++ v) = (findEndif v).map (fun pr => (u ++ pr.1, pr.2)) := by
  intro u
  induction u with
  | nil =>
    intro v _
    rw [List.nil_append]
    cases findEndif v with
    | none => rfl
    | some pr => rfl
  | cons c cs ih =>
    intro v h
    rw [List.all_cons, Bool.and_eq_true] at h
    rw [List.cons_append,
      findEndif_cons_none _ _ (endifTagAt_headNe _ _ (by simpa using h.1)), ih v h.2]
    cases findEndif v with
    | none => rfl
    | some pr => rfl

theorem findEndif_chunk_step (mid v : List Char)
    (hmid : mid.all (fun ch => !(ch == '{')) = true)
    (h0 : endifTagAt ('{' :: '%' :: (mid ++ v)) = none) :
    findEndif ('{' :: '%' :: (mid ++ v))
      = (findEndif v).map (fun pr => ('{' :: '%' :: (mid ++ pr.1), pr.2)) := by
  rw [findEndif_cons_none _ _ h0,
    findEndif_cons_none _ _ (endifTagAt_headNe _ _ (by decide)),
    findEndif_skip_noBrace mid v hmid]
  cases findEndif v with
  | none => rfl
  | some pr => rfl

theorem findEndif_elseChunk (bd v : List Char) (hbd : bodyOk bd = true) :
    findEndif (elseChunkL bd ++ v)
      = (findEndif v).map (fun pr => (elseChunkL bd ++ pr.1, pr.2)) := by
  have hmid : (' ' :: 'e' :: 'l' :: 's' :: 'e' :: ' ' :: '%' :: '}' :: bd).all
      (fun ch => !(ch == '{')) = true := by
    simp only [List.all_cons, Bool.and_eq_true]
    exact ⟨by decide, by decide, by decide, by decide, by decide, by decide, by decide,
      by decide, bodyOk_noBrace bd hbd⟩
  have hform : elseChunkL bd ++ v
      = '{' :: '%' :: ((' ' :: 'e' :: 'l' :: 's' :: 'e' :: ' ' :: '%' :: '}' :: bd) ++ v) := by
    simp [elseChunkL]
  have h0 : endifTagAt ('{' :: '%' :: ((' ' :: 'e' :: 'l' :: 's' :: 'e' :: ' ' :: '%' :: '}' :: bd) ++ v)) = none := by
    have hf : '{' :: '%' :: ((' ' :: 'e' :: 'l' :: 's' :: 'e' :: ' ' :: '%' :: '}' :: bd) ++ v)
        = '{' :: '%' :: ' ' :: 'e' :: 'l' :: ('s' :: 'e' :: ' ' :: '%' :: '}' :: (bd ++ v)) := by
      simp
    rw [hf]
    exact endifTagAt_elHead _
  rw [hform, findEndif_chunk_step _ _ hmid h0]
  cases findEndif v with
  | none => rfl
  | some pr => simp [elseChunkL]

theorem findEndif_elifChunk (c bd v : List Char) (hc : condOk c = true)
    (hbd : bodyOk bd = true) :
    findEndif (elifChunkL c bd ++ v)
      = (findEndif v).map (fun pr => (elifChunkL c bd ++ pr.1, pr.2)) := by
  have hmid : (' ' :: 'e' :: 'l' :: 'i' :: 'f' :: ' ' :: (c ++ (' ' :: '%' :: '}' :: bd))).all
      (fun ch => !(ch == '{')) = true := by
    simp only [List.all_cons, List.all_append, Bool.and_eq_true]
    exact ⟨by decide, by decide, by decide, by decide, by decide, by decide,
      condOk_noBrace c hc, by decide, by decide, by decide, bodyOk_noBrace bd hbd⟩
  have hform : elifChunkL c bd ++ v
      = '{' :: '%' :: ((' ' :: 'e' :: 'l' :: 'i' :: 'f' :: ' ' :: (c ++ (' ' :: '%' :: '}' :: bd))) ++ v) := by
    simp [elifChunkL]
  have h0 : endifTagAt ('{' :: '%' :: ((' ' :: 'e' :: 'l' :: 'i' :: 'f' :: ' ' :: (c ++ (' ' :: '%' :: '}' :: bd))) ++ v)) = none := by
    have hf : '{' :: '%' :: ((' ' :: 'e' :: 'l' :: 'i' :: 'f' :: ' ' :: (c ++ (' ' :: '%' :: '}' :: bd))) ++ v)
        = '{' :: '%' :: ' ' :: 'e' :: 'l' :: ('i' :: 'f' :: ' ' :: (c ++ (' ' :: '%' :: '}' :: (bd ++ v)))) := by
      simp
    rw [hf]
    exact endifTagAt_elHead _
  rw [hform, findEndif_chunk_step _ _ hmid h0]
  cases findEndif v with
  | none => rfl
  | some pr => simp [elifChunkL]

theorem findEndif_chunks : ∀ (es : List (List Char × List Char)),
    es.all (fun p => condOk p.1 && bodyOk p.2) = true →
    ∀ (els : Option (List Char)), Option.all bodyOk els = true →
    findEndif (chunksL es ++ (elsePartL els ++ endifL))
      = some (chunksL es ++ elsePartL els, []) := by
  intro es
  induction es with
  | nil =>
    intro _ els hels
    cases els with
    | none => simp [chunksL, elsePartL, findEndif_endifL]
    | some b =>
      have hb : bodyOk b = true := by simpa [Option.all] using hels
      simp only [chunksL, elsePartL, List.nil_append]
      rw [findEndif_elseChunk b endifL hb, findEndif_endifL]
      simp
  | cons p rest ih =>
    intro hes els hels
    obtain ⟨c, bd⟩ := p
    rw [List.all_cons, Bool.and_eq_true] at hes
    obtain ⟨hp, hrest⟩ := hes
    rw [Bool.and_eq_true] at hp
    simp only [chunksL, List.append_assoc]
    rw [findEndif_elifChunk c bd _ hp.1 hp.2, ih hrest els hels]
    simp [List.append_assoc]

theorem findEndif_interior (b1 : List Char) (es : List (List Char × List Char))
    (els : Option (List Char)) (hb1 : bodyOk b1 = true)
    (hes : es.all (fun p => condOk p.1 && bodyOk p.2) = true)
    (hels : Option.all bodyOk els = true) :
    findEndif (interiorL b1 es els ++ endifL) = some (interiorL b1 es els, []) := by
  simp only [interiorL, List.append_assoc]
  rw [findEndif_skip_noBrace b1 _ (bodyOk_noBrace b1 hb1),
    findEndif_chunks es hes els hels]
  simp [interiorL]

/-- The full span regex matches a canonical span at its start, capturing the
raw condition (with its trailing space) and the interior, and consuming the
whole span. -/
theorem matchIfFull_span (c1 b1 : List Char) (es : List (List Char × List Char))
    (els : Option (List Char)) (hc1 : condOk c1 = true) (hb1 : bodyOk b1 = true)
    (hes : es.all (fun p => condOk p.1 && bodyOk p.2) = true)
    (hels : Option.all bodyOk els = true) :
    matchIfFull (spanL c1 b1 es els)
      = some (c1 ++ [' '], interiorL b1 es els, []) := by
  have htag : tagArgAt "if".data (spanL c1 b1 es els)
      = some (c1 ++ [' '], interiorL b1 es els ++ endifL) := by
    have hw : "if".data = ['i', 'f'] := rfl
    rw [hw]
    exact tagArgAt_canonical ['i', 'f'] _ c1 _ (by simp [spanL]) (by simp) (by decide) hc1
  have hend := findEndif_interior b1 es els hb1 hes hels
  simp only [matchIfFull, htag, hend]

theorem findElifs_nilList (fuel pos : Nat) : findElifs fuel pos [] = [] := by
  cases fuel <;> rfl

theorem findElifs_noBrace_nil : ∀ (u : List Char),
    u.all (fun ch => !(ch == '{')) = true →
    ∀ (fuel pos : Nat), findElifs fuel pos u = [] := by
  intro u
  induction u with
  | nil => intro _ fuel pos; exact findElifs_nilList fuel pos
  | cons c cs ih =>
    intro h fuel pos
    rw [List.all_cons, Bool.and_eq_true] at h
    cases fuel with
    | zero => rfl
    | succ f =>
      rw [findElifs]
      have ht := tagArgAt_headNe "elif".data c cs (by simpa using h.1)
      simp only [ht]
      exact ih h.2 f (pos + 1)

theorem findElifs_skip : ∀ (u : List Char), u.all (fun ch => !(ch == '{')) = true →
    ∀ (fuel pos : Nat) (v : List Char),
    findElifs (u.length + fuel) pos (u ++ v) = findElifs fuel (pos + u.length) v := by
  intro u
  induction u with
  | nil => intro _ fuel pos v; simp
  | cons c cs ih =>
    intro h fuel pos v
    rw [List.all_cons, Bool.and_eq_true] at h
    have hcons : (c :: cs).length + fuel = (cs.length + fuel) + 1 := by
      simp only [List.length_cons]
      omega
    rw [hcons, List.cons_append, findElifs]
    have ht := tagArgAt_headNe "elif".data c (cs ++ v) (by simpa using h.1)
    simp only [ht]
    rw [ih h.2 fuel (pos + 1) v]
    have hAB : pos + 1 + cs.length = pos + (c :: cs).length := by
      simp only [List.length_cons]
      omega
    rw [hAB]

/-- The elif scan hits a canonical elif chunk: it records the start offset
with the trimmed condition and resumes right after the tag. -/
theorem findElifs_hit (c bd M : List Char) (hc : condOk c = true) (fuel pos : Nat) :
    findElifs (fuel + 1) pos (elifChunkL c bd ++ M)
      = (pos, (⟨c⟩ : String)) :: findElifs fuel (pos + (11 + c.length)) (bd ++ M) := by
  have hform : elifChunkL c bd ++ M
      = '{' :: '%' :: ' ' :: 'e' :: 'l' :: 'i' :: 'f' :: ' ' :: (c ++ (' ' :: '%' :: '}' :: (bd ++ M))) := by
    simp [elifChunkL]
  have htag : tagArgAt "elif".data
      ('{' :: '%' :: ' ' :: 'e' :: 'l' :: 'i' :: 'f' :: ' ' :: (c ++ (' ' :: '%' :: '}' :: (bd ++ M))))
      = some (c ++ [' '], bd ++ M) := by
    have hw : "elif".data = ['e', 'l', 'i', 'f'] := rfl
    rw [hw]
    exact tagArgAt_canonical ['e', 'l', 'i', 'f'] _ c (bd ++ M) (by simp) (by simp) (by decide) hc
  rw [hform, findElifs]
  simp only [htag]
  have htrim : trimS (⟨c ++ [' ']⟩ : String) = (⟨c⟩ : String) := by
    rw [trimS]
    show (⟨trimL (c ++ [' '])⟩ : String) = (⟨c⟩ : String)
    rw [trim_cond c hc]
  have harr : ('{' :: '%' :: ' ' :: 'e' :: 'l' :: 'i' :: 'f' :: ' ' :: (c ++ (' ' :: '%' :: '}' :: (bd ++ M)))).length - (bd ++ M).length
      = 11 + c.length := by
    simp only [List.length_cons, List.length_append]
    omega
  rw [htrim, harr]

theorem findElifs_chunks : ∀ (es : List (List Char × List Char)),
    es.all (fun p => condOk p.1 && bodyOk p.2) = true →
    ∀ (els : Option (List Char)), Option.all bodyOk els = true →
    ∀ (pos fuel : Nat),
    findElifs ((chunksL es ++ elsePartL els).length + fuel) pos (chunksL es ++ elsePartL els)
      = elifIdxOf pos es := by
  intro es
  induction es with
  | nil =>
    intro _ els hels pos fuel
    cases els with
    | none => simp [chunksL, elsePartL, findElifs_nilList, elifIdxOf]
    | some b =>
      have hb : bodyOk b = true := by simpa [Option.all] using hels
      simp only [chunksL, elsePartL, List.nil_append, elifIdxOf]
      have hlen : (elseChunkL b).length + fuel = (9 + b.length + fuel) + 1 := by
        simp only [elseChunkL, List.length_cons]
        omega
      rw [hlen, elseChunkL, findElifs]
      have ht := tagArgAt_elif_elseHead ('e' :: ' ' :: '%' :: '}' :: b)
      simp only [ht]
      exact findElifs_noBrace_nil _ (by
        simp only [List.all_cons, Bool.and_eq_true]
        exact ⟨by decide, by decide, by decide, by decide, by decide, by decide, by decide,
          by decide, by decide, bodyOk_noBrace b hb⟩) _ _
  | cons p rest ih =>
    intro hes els hels pos fuel
    obtain ⟨c, bd⟩ := p
    rw [List.all_cons, Bool.and_eq_true] at hes
    obtain ⟨hp, hrest⟩ := hes
    rw [Bool.and_eq_true] at hp
    simp only [chunksL, List.append_assoc]
    have hlen : ((elifChunkL c bd ++ (chunksL rest ++ elsePartL els)).length) + fuel
        = (10 + c.length + ((bd ++ (chunksL rest ++ elsePartL els)).length) + fuel) + 1 := by
      simp only [elifChunkL, List.length_cons, List.length_append]
      omega
    rw [hlen, findElifs_hit c bd _ hp.1 _ pos]
    have hF : 10 + c.length + ((bd ++ (chunksL rest ++ elsePartL els)).length) + fuel
        = bd.length + (10 + c.length + (chunksL rest ++ elsePartL els).length + fuel) := by
      simp only [List.length_append]
      omega
    rw [hF, findElifs_skip bd (bodyOk_noBrace bd hp.2) _ _ _]
    have hF2 : 10 + c.length + (chunksL rest ++ elsePartL els).length + fuel
        = (chunksL rest ++ elsePartL els).length + (10 + c.length + fuel) := by
      omega
    rw [hF2, ih hrest els hels _ _]
    simp only [elifIdxOf]
    have hpos : pos + (11 + c.length) + bd.length = pos + (11 + c.length + bd.length) := by
      omega
    rw [hpos]

theorem findElifs_interior (b1 : List Char) (es : List (List Char × List Char))
    (els : Option (List Char)) (hb1 : bodyOk b1 = true)
    (hes : es.all (fun p => condOk p.1 && bodyOk p.2) = true)
    (hels : Option.all bodyOk els = true) :
    findElifs (interiorL b1 es els).length 0 (interiorL b1 es els)
      = elifIdxOf b1.length es := by
  rw [interiorL]
  have hlen : (b1 ++ (chunksL es ++ elsePartL els)).length
      = b1.length + (chunksL es ++ elsePartL els).length := by
    simp
  rw [hlen, findElifs_skip b1 (bodyOk_noBrace b1 hb1) _ _ _]
  have h0 : (chunksL es ++ elsePartL els).length
      = (chunksL es ++ elsePartL els).length + 0 := by omega
  rw [h0, findElifs_chunks es hes els hels _ _]
  rw [Nat.zero_add]

theorem findElse_cons_none (pos : Nat) (c : Char) (cs : List Char)
    (h : elseTagAt (c :: cs) = none) :
    findElse pos (c :: cs) = findElse (pos + 1) cs := by
  rw [findElse, h]
  simp

theorem findElse_skip : ∀ (u : List Char), u.all (fun ch => !(ch == '{')) = true →
    ∀ (pos : Nat) (v : List Char), findElse pos (u ++ v) = findElse (pos + u.length) v := by
  intro u
  induction u with
  | nil => intro _ pos v; simp
  | cons c cs ih =>
    intro h pos v
    rw [List.all_cons, Bool.and_eq_true] at h
    rw [List.cons_append,
      findElse_cons_none pos c _ (elseTagAt_headNe _ _ (by simpa using h.1)), ih h.2 (pos + 1) v]
    have hAB : pos + 1 + cs.length = pos + (c :: cs).length := by
      simp only [List.length_cons]
      omega
    rw [hAB]

theorem findElse_chunks : ∀ (es : List (List Char × List Char)),
    es.all (fun p => condOk p.1 && bodyOk p.2) = true →
    ∀ (els : Option (List Char)) (pos : Nat),
    findElse pos (chunksL es ++ elsePartL els)
      = (match els with
         | some _ => some (pos + (chunksL es).length)
         | none => none) := by
  intro es
  induction es with
  | nil =>
    intro _ els pos
    cases els with
    | none => simp [chunksL, elsePartL, findElse]
    | some b =>
      simp only [chunksL, elsePartL, List.nil_append, elseChunkL]
      rw [findElse, elseTagAt_elseHead b]
      simp [chunksL]
  | cons p rest ih =>
    intro hes els pos
    obtain ⟨c, bd⟩ := p
    rw [List.all_cons, Bool.and_eq_true] at hes
    obtain ⟨hp, hrest⟩ := hes
    rw [Bool.and_eq_true] at hp
    simp only [chunksL, List.append_assoc, elifChunkL]
    have hform0 : ('{' :: '%' :: ' ' :: 'e' :: 'l' :: 'i' :: 'f' :: ' ' :: (c ++ ' ' :: '%' :: '}' :: bd)) ++ (chunksL rest ++ elsePartL els)
        = '{' :: '%' :: ' ' :: 'e' :: 'l' :: 'i' :: 'f' :: ' ' :: (c ++ (' ' :: '%' :: '}' :: (bd ++ (chunksL rest ++ elsePartL els)))) := by
      simp
    rw [hform0, findElse_cons_none pos _ _ (elseTagAt_elifHead _)]
    have hform : '%' :: ' ' :: 'e' :: 'l' :: 'i' :: 'f' :: ' ' :: (c ++ (' ' :: '%' :: '}' :: (bd ++ (chunksL rest ++ elsePartL els))))
        = ('%' :: ' ' :: 'e' :: 'l' :: 'i' :: 'f' :: ' ' :: (c ++ (' ' :: '%' :: '}' :: bd))) ++ (chunksL rest ++ elsePartL els) := by
      simp
    rw [hform, findElse_skip _ (by
      simp only [List.all_cons, List.all_append, Bool.and_eq_true]
      exact ⟨by decide, by decide, by decide, by decide, by decide, by decide, by decide,
        condOk_noBrace c hp.1, by decide, by decide, by decide, bodyOk_noBrace bd hp.2⟩) _ _,
      ih hrest els _]
    cases els with
    | none => rfl
    | some b =>
      exact congrArg some (by
        simp only [List.length_cons, List.length_append]
        omega)

theorem findElse_interior (b1 : List Char) (es : List (List Char × List Char))
    (els : Option (List Char)) (hb1 : bodyOk b1 = true)
    (hes : es.all (fun p => condOk p.1 && bodyOk p.2) = true) :
    findElse 0 (interiorL b1 es els)
      = (match els with
         | some _ => some (b1.length + (chunksL es).length)
         | none => none) := by
  rw [interiorL, findElse_skip b1 (bodyOk_noBrace b1 hb1) 0 _, Nat.zero_add,
    findElse_chunks es hes els _]

theorem insertBP_head (x : Nat × BPKind) (ys : List (Nat × BPKind))
    (h : ∀ y ∈ ys, x.1 ≤ y.1) : insertBP x ys = x :: ys := by
  cases ys with
  | nil => rfl
  | cons y ys' => rw [insertBP, if_pos (h y (by simp))]

theorem sortBPs_sorted : ∀ (l : List (Nat × BPKind)),
    l.Pairwise (fun a b => a.1 ≤ b.1) → sortBPs l = l := by
  intro l
  induction l with
  | nil => intro _; rfl
  | cons x xs ih =>
    intro h
    rw [List.pairwise_cons] at h
    rw [sortBPs, ih h.2, insertBP_head x xs h.1]

theorem bpsOf_lb : ∀ (es : List (List Char × List Char)) (els : Option (List Char))
    (p : Nat), ∀ y ∈ bpsOf p es els, p ≤ y.1 := by
  intro es
  induction es with
  | nil =>
    intro els p y hy
    cases els with
    | none => simp [bpsOf] at hy
    | some b =>
      rw [bpsOf] at hy
      simp only [List.mem_singleton] at hy
      rw [hy]
  | cons q rest ih =>
    obtain ⟨c, bd⟩ := q
    intro els p y hy
    rw [bpsOf] at hy
    rcases List.mem_cons.mp hy with h1 | h1
    · rw [h1]
    · exact Nat.le_trans (by omega) (ih els _ y h1)

theorem bpsOf_pairwise : ∀ (es : List (List Char × List Char)) (els : Option (List Char))
    (p : Nat), (bpsOf p es els).Pairwise (fun a b => a.1 ≤ b.1) := by
  intro es
  induction es with
  | nil =>
    intro els p
    cases els with
    | none => simp [bpsOf]
    | some b => simp [bpsOf]
  | cons q rest ih =>
    obtain ⟨c, bd⟩ := q
    intro els p
    rw [bpsOf, List.pairwise_cons]
    exact ⟨fun y hy => Nat.le_trans (by omega) (bpsOf_lb rest els _ y hy), ih els _⟩

theorem bps_raw : ∀ (es : List (List Char × List Char)) (els : Option (List Char)) (p : Nat),
    (elifIdxOf p es).map (fun q => (q.1, BPKind.elifBP q.2))
      ++ (match els with
          | some _ => [(p + (chunksL es).length, BPKind.elseBP)]
          | none => [])
      = bpsOf p es els := by
  intro es
  induction es with
  | nil =>
    intro els p
    cases els with
    | none => simp [elifIdxOf, bpsOf]
    | some b => simp [elifIdxOf, bpsOf, chunksL]
  | cons q rest ih =>
    obtain ⟨c, bd⟩ := q
    intro els p
    simp only [elifIdxOf, List.map_cons, List.cons_append, bpsOf]
    have hidx : p + (chunksL ((c, bd) :: rest)).length
        = p + (11 + c.length + bd.length) + (chunksL rest).length := by
      simp only [chunksL, elifChunkL, List.length_append, List.length_cons]
      omega
    rw [hidx, ih els _]

theorem bps_build (es : List (List Char × List Char)) (els : Option (List Char)) (p : Nat) :
    sortBPs ((elifIdxOf p es).map (fun q => (q.1, BPKind.elifBP q.2))
      ++ (match els with
          | some _ => [(p + (chunksL es).length, BPKind.elseBP)]
          | none => []))
      = bpsOf p es els := by
  rw [bps_raw es els p]
  exact sortBPs_sorted _ (bpsOf_pairwise es els p)

theorem idxPctGo_cons_ne (p : Nat) (x y : Char) (rest : List Char)
    (h : (x == '%' && y == '}') = false) :
    idxPctGo p (x :: y :: rest) = idxPctGo (p + 1) (y :: rest) := by
  rw [idxPctGo, if_neg (by simp [h])]

theorem idxPctGo_hit (p : Nat) (rest : List Char) :
    idxPctGo p ('%' :: '}' :: rest) = (p : Int) := by
  rw [idxPctGo, if_pos (by decide)]

theorem idxPctGo_skip : ∀ (u : List Char), u.all (fun ch => !(ch == '%')) = true →
    ∀ (p : Nat) (v : List Char), idxPctGo p (u ++ v) = idxPctGo (p + u.length) v := by
  intro u
  induction u with
  | nil => intro _ p v; simp
  | cons x u' ih =>
    intro h p v
    rw [List.all_cons, Bool.and_eq_true] at h
    have hx : (x == '%') = false := by simpa using h.1
    rcases huv : u' ++ v with _ | ⟨y, r⟩
    · obtain ⟨hu', hv⟩ := List.append_eq_nil.mp huv
      subst hu'
      subst hv
      simp [idxPctGo]
    · rw [List.cons_append, huv, idxPctGo_cons_ne p x y r (by rw [hx]; rfl), ← huv,
        ih h.2 (p + 1) v]
      have hAB : p + 1 + u'.length = p + (x :: u').length := by
        simp only [List.length_cons]
        omega
      rw [hAB]

theorem jsSubstring_extract (s u v w : List Char) (hs : s = u ++ v ++ w) (a b : Int)
    (ha : a = (u.length : Int)) (hb : b = (u.length : Int) + (v.length : Int)) :
    jsSubstring s a b = v := by
  subst hs
  subst ha
  subst hb
  simp only [jsSubstring]
  have hlo : (min (min (max ((u.length : Int)) 0) ((u ++ v ++ w).length : Int))
      (min (max ((u.length : Int) + (v.length : Int)) 0) ((u ++ v ++ w).length : Int))).toNat
      = u.length := by
    simp only [List.length_append]
    push_cast
    omega
  have hhi : (max (min (max ((u.length : Int)) 0) ((u ++ v ++ w).length : Int))
      (min (max ((u.length : Int) + (v.length : Int)) 0) ((u ++ v ++ w).length : Int))).toNat
      = u.length + v.length := by
    simp only [List.length_append]
    push_cast
    omega
  rw [hlo, hhi]
  have htake : u.length + v.length = (u ++ v).length := by simp
  rw [htake, List.take_left, List.drop_left]

theorem condOk_noPct (c : List Char) (h : condOk c = true) :
    c.all (fun ch => !(ch == '%')) = true := by
  obtain ⟨_, _, _, h4⟩ := condOk_parts c h
  rw [List.all_eq_true]
  intro ch hch
  simp only [Bool.not_eq_true']
  exact (h4 ch hch).1

theorem idxPct_elseChunk (p : Nat) (b : List Char) :
    idxPctGo p (elseChunkL b) = ((p + 8 : Nat) : Int) := by
  rw [elseChunkL, idxPctGo_cons_ne _ _ _ _ (by decide), idxPctGo_cons_ne _ _ _ _ (by decide),
    idxPctGo_cons_ne _ _ _ _ (by decide), idxPctGo_cons_ne _ _ _ _ (by decide),
    idxPctGo_cons_ne _ _ _ _ (by decide), idxPctGo_cons_ne _ _ _ _ (by decide),
    idxPctGo_cons_ne _ _ _ _ (by decide), idxPctGo_cons_ne _ _ _ _ (by decide),
    idxPctGo_hit]

theorem idxPct_elifChunk (p : Nat) (c bd M : List Char) (hc : condOk c = true) :
    idxPctGo p (elifChunkL c bd ++ M) = ((p + 9 + c.length : Nat) : Int) := by
  have hform : elifChunkL c bd ++ M
      = '{' :: '%' :: ' ' :: 'e' :: 'l' :: 'i' :: 'f' :: ' ' :: (c ++ (' ' :: '%' :: '}' :: (bd ++ M))) := by
    simp [elifChunkL]
  rw [hform, idxPctGo_cons_ne _ _ _ _ (by decide), idxPctGo_cons_ne _ _ _ _ (by decide)]
  have hform2 : ' ' :: 'e' :: 'l' :: 'i' :: 'f' :: ' ' :: (c ++ (' ' :: '%' :: '}' :: (bd ++ M)))
      = (' ' :: 'e' :: 'l' :: 'i' :: 'f' :: ' ' :: (c ++ [' '])) ++ ('%' :: '}' :: (bd ++ M)) := by
    simp
  rw [hform2, idxPctGo_skip _ (by
      simp only [List.all_cons, List.all_append, Bool.and_eq_true]
      exact ⟨by decide, by decide, by decide, by decide, by decide, by decide,
        condOk_noPct c hc, by decide⟩) _ _,
    idxPctGo_hit]
  exact congrArg _ (by
    simp only [List.length_cons, List.length_append, List.length_nil]
    omega)

theorem mkBlocks_main : ∀ (es : List (List Char × List Char)),
    es.all (fun p => condOk p.1 && bodyOk p.2) = true →
    ∀ (els : Option (List Char)), Option.all bodyOk els = true →
    ∀ (pre : List Char),
    mkBlocks (pre ++ (chunksL es ++ elsePartL els)) (bpsOf pre.length es els)
      = blocksOf es els := by
  intro es
  induction es with
  | nil =>
    intro _ els hels pre
    cases els with
    | none => simp [bpsOf, mkBlocks, blocksOf]
    | some b =>
      have hb : bodyOk b = true := by simpa [Option.all] using hels
      simp only [bpsOf, chunksL, elsePartL, List.nil_append, blocksOf, List.map_nil]
      simp only [mkBlocks]
      have hdrop : (pre ++ elseChunkL b).drop pre.length = elseChunkL b := List.drop_left _ _
      rw [idxPct, hdrop, idxPct_elseChunk]
      have hsub : jsSubstring (pre ++ elseChunkL b) (((pre.length + 8 : Nat) : Int) + 2)
          ((pre ++ elseChunkL b).length : Int) = b := by
        refine jsSubstring_extract _ (pre ++ ['{', '%', ' ', 'e', 'l', 's', 'e', ' ', '%', '}'])
          b [] ?_ _ _ ?_ ?_
        · simp [elseChunkL]
        · simp only [elseChunkL, List.length_append, List.length_cons, List.length_nil]
          push_cast
          omega
        · simp only [elseChunkL, List.length_append, List.length_cons, List.length_nil]
          push_cast
          omega
      rw [hsub]
  | cons q rest ih =>
    intro hes els hels pre
    obtain ⟨c, bd⟩ := q
    rw [List.all_cons, Bool.and_eq_true] at hes
    obtain ⟨hp, hrest⟩ := hes
    rw [Bool.and_eq_true] at hp
    have hC : pre ++ (chunksL ((c, bd) :: rest) ++ elsePartL els)
        = pre ++ (elifChunkL c bd ++ (chunksL rest ++ elsePartL els)) := by
      simp [chunksL]
    rw [hC, bpsOf]
    simp only [mkBlocks]
    have hdrop : (pre ++ (elifChunkL c bd ++ (chunksL rest ++ elsePartL els))).drop pre.length
        = elifChunkL c bd ++ (chunksL rest ++ elsePartL els) := List.drop_left _ _
    rw [idxPct, hdrop, idxPct_elifChunk _ _ _ _ hp.1]
    have hsub : jsSubstring (pre ++ (elifChunkL c bd ++ (chunksL rest ++ elsePartL els)))
        (((pre.length + 9 + c.length : Nat) : Int) + 2)
        (match bpsOf (pre.length + (11 + c.length + bd.length)) rest els with
         | nb :: _ => (nb.1 : Int)
         | [] => ((pre ++ (elifChunkL c bd ++ (chunksL rest ++ elsePartL els))).length : Int))
        = bd := by
      refine jsSubstring_extract _
        (pre ++ ('{' :: '%' :: ' ' :: 'e' :: 'l' :: 'i' :: 'f' :: ' ' :: (c ++ [' ', '%', '}'])))
        bd (chunksL rest ++ elsePartL els) ?_ _ _ ?_ ?_
      · simp [elifChunkL]
      · simp only [List.length_append, List.length_cons, List.length_nil]
        push_cast
        omega
      · rcases rest with _ | ⟨q2, rest'⟩
        · cases els with
          | none =>
            simp only [bpsOf, chunksL, elsePartL, List.append_nil, elifChunkL,
              List.length_append, List.length_cons, List.length_nil]
            push_cast
            omega
          | some b2 =>
            simp only [bpsOf, List.length_append, List.length_cons, List.length_nil]
            push_cast
            omega
        · obtain ⟨c2, bd2⟩ := q2
          simp only [bpsOf, List.length_append, List.length_cons, List.length_nil]
          push_cast
          omega
    rw [hsub]
    have hpre2 : pre ++ (elifChunkL c bd ++ (chunksL rest ++ elsePartL els))
        = (pre ++ elifChunkL c bd) ++ (chunksL rest ++ elsePartL els) := by
      simp
    have hlen2 : pre.length + (11 + c.length + bd.length) = (pre ++ elifChunkL c bd).length := by
      simp only [List.length_append, elifChunkL, List.length_cons]
      omega
    rw [hpre2, hlen2, ih hrest els hels (pre ++ elifChunkL c bd)]
    simp [blocksOf]

theorem chooseBlock_elifs (vars : Context) : ∀ (es : List (List Char × List Char)),
    es.all (fun p => condOk p.1 && bodyOk p.2) = true →
    ∀ (els : Option (List Char)),
    chooseBlock vars (blocksOf es els) = pickElifs vars els es := by
  intro es
  induction es with
  | nil =>
    intro _ els
    cases els with
    | none => rfl
    | some b => rfl
  | cons q rest ih =>
    intro hes els
    obtain ⟨c, bd⟩ := q
    rw [List.all_cons, Bool.and_eq_true] at hes
    obtain ⟨hp, hrest⟩ := hes
    rw [Bool.and_eq_true] at hp
    obtain ⟨hcne, _, _, _⟩ := condOk_parts c hp.1
    simp only [blocksOf, List.map_cons, List.cons_append]
    rw [chooseBlock]
    simp only [strNeEmpty c hcne, Bool.true_and]
    rw [pickElifs]
    cases hev : evaluateCondition (⟨c⟩ : String) vars with
    | true => simp only [hev, if_true]
    | false =>
      simp only [hev, if_false, Bool.false_eq_true]
      have := ih hrest els
      simp only [blocksOf] at this
      exact this

theorem chooseBlock_span (vars : Context) (c1 b1 : List Char)
    (es : List (List Char × List Char)) (els : Option (List Char))
    (hc1 : condOk c1 = true)
    (hes : es.all (fun p => condOk p.1 && bodyOk p.2) = true) :
    chooseBlock vars
      ((⟨BlockTy.tIf, some (⟨c1⟩ : String), (⟨trimL b1⟩ : String)⟩ : JBlock) :: blocksOf es els)
      = pickBranchL vars c1 b1 es els := by
  obtain ⟨hcne, _, _, _⟩ := condOk_parts c1 hc1
  rw [chooseBlock]
  simp only [strNeEmpty c1 hcne, Bool.true_and]
  rw [pickBranchL]
  cases hev : evaluateCondition (⟨c1⟩ : String) vars with
  | true => simp only [hev, if_true]
  | false =>
    simp only [hev, if_false, Bool.false_eq_true]
    exact chooseBlock_elifs vars es hes els

theorem processGo_nilArg (vars : Context) (fuel : Nat) : processGo vars fuel [] = [] := by
  cases fuel <;> rfl

theorem bps_build2 (es : List (List Char × List Char)) (els : Option (List Char)) (p : Nat) :
    sortBPs ((elifIdxOf p es).map (fun q => (q.1, BPKind.elifBP q.2))
      ++ (match (match els with
                 | some _ => some (p + (chunksL es).length)
                 | none => none : Option Nat) with
          | some i => [(i, BPKind.elseBP)]
          | none => []))
      = bpsOf p es els := by
  cases els with
  | none => exact bps_build es none p
  | some b => exact bps_build es (some b) p

/-- The replacement callback on a canonical span interior produces exactly
the claim's selected branch, trimmed. -/
theorem processBlockMatch_main (vars : Context) (c1 b1 : List Char)
    (es : List (List Char × List Char)) (els : Option (List Char))
    (hc1 : condOk c1 = true) (hb1 : bodyOk b1 = true)
    (hes : es.all (fun p => condOk p.1 && bodyOk p.2) = true)
    (hels : Option.all bodyOk els = true) :
    processBlockMatch vars (⟨c1 ++ [' ']⟩ : String) (⟨interiorL b1 es els⟩ : String)
      = pickBranchL vars c1 b1 es els := by
  have hdata : (⟨interiorL b1 es els⟩ : String).data = interiorL b1 es els := rfl
  have helifs := findElifs_interior b1 es els hb1 hes hels
  have helse := findElse_interior b1 es els hb1 hes
  simp only [processBlockMatch, hdata, helifs, helse]
  rw [bps_build2 es els b1.length]
  have htake : (interiorL b1 es els).take
      (match bpsOf b1.length es els with
       | bp :: _ => bp.1
       | [] => (interiorL b1 es els).length) = b1 := by
    rcases es with _ | ⟨⟨c, bd⟩, rest⟩
    · cases els with
      | none =>
        simp only [bpsOf, interiorL, chunksL, elsePartL, List.append_nil, List.nil_append]
        exact List.take_length b1
      | some b =>
        simp only [bpsOf, interiorL]
        exact List.take_left _ _
    · simp only [bpsOf, interiorL]
      exact List.take_left _ _
  rw [htake]
  have htrim : trimS (⟨c1 ++ [' ']⟩ : String) = (⟨c1⟩ : String) := by
    rw [trimS]
    show (⟨trimL (c1 ++ [' '])⟩ : String) = (⟨c1⟩ : String)
    rw [trim_cond c1 hc1]
  rw [htrim]
  have hmk : mkBlocks (interiorL b1 es els) (bpsOf b1.length es els) = blocksOf es els := by
    have := mkBlocks_main es hes els hels b1
    rw [← interiorL] at this
    exact this
  rw [hmk]
  exact chooseBlock_span vars c1 b1 es els hc1 hes

/-- C2 (amended): for every canonical conditional span
`\x7b% if c1 %\x7db1\x7b% elif c %\x7db…\x7b% else %\x7dbn\x7b% endif %\x7d`
whose conditions are nonempty, brace/percent-free and not edge-whitespace,
and whose bodies are brace/percent-free, and for every context, the block
processor replaces the span with the body of the first branch whose
condition evaluates true (top-to-bottom), else the else-branch body, else
the empty string — but each selected body is the TRIMMED branch text, not
the raw text the claim states. -/
theorem C2_span_selects_trimmed_branch (vars : Context) (c1 b1 : List Char)
    (es : List (List Char × List Char)) (els : Option (List Char))
    (hc1 : condOk c1 = true) (hb1 : bodyOk b1 = true)
    (hes : es.all (fun p => condOk p.1 && bodyOk p.2) = true)
    (hels : Option.all bodyOk els = true) :
    processConditionalBlocks (⟨spanL c1 b1 es els⟩ : String) vars
      = pickBranchL vars c1 b1 es els := by
  rw [processConditionalBlocks]
  have hdata : (⟨spanL c1 b1 es els⟩ : String).data = spanL c1 b1 es els := rfl
  rw [hdata]
  have hm := matchIfFull_span c1 b1 es els hc1 hb1 hes hels
  rw [spanL] at hm ⊢
  have hlen : ('{' :: '%' :: ' ' :: 'i' :: 'f' :: ' ' :: (c1 ++ (' ' :: '%' :: '}' :: (interiorL b1 es els ++ endifL)))).length
      = ('%' :: ' ' :: 'i' :: 'f' :: ' ' :: (c1 ++ (' ' :: '%' :: '}' :: (interiorL b1 es els ++ endifL)))).length + 1 := by
    simp only [List.length_cons]
  rw [hlen, processGo]
  simp only [hm]
  rw [processGo_nilArg, List.append_nil,
    processBlockMatch_main vars c1 b1 es els hc1 hb1 hes hels]

/-- C2 counterexample: the span `\x7b% if x %\x7d A \x7b% endif %\x7d` with a
truthy `x` is replaced by `A`, the trimmed body, not by the raw body
text ` A ` the claim promises. -/
theorem C2_counterexample :
    processConditionalBlocks (tagL ++ " if x " ++ tagR ++ " A " ++ tagL ++ " endif " ++ tagR)
      [("x", Value.vNum 1)] = "A"
    ∧ processConditionalBlocks (tagL ++ " if x " ++ tagR ++ " A " ++ tagL ++ " endif " ++ tagR)
      [("x", Value.vNum 1)] ≠ " A " :=
  ⟨by decide, by decide⟩

/-- C2 witness: in `\x7b% if x %\x7d A \x7b% elif y %\x7d B \x7b% else %\x7d C \x7b% endif %\x7d`
with `x` absent and `y` truthy, the elif branch is selected and trimmed. -/
theorem C2_witness :
    processConditionalBlocks
      (⟨spanL "x".data " A ".data [("y".data, " B ".data)] (some " C ".data)⟩ : String)
      [("y", Value.vStr "yes")] = "B" := by
  have h := C2_span_selects_trimmed_branch [("y", Value.vStr "yes")] "x".data " A ".data
    [("y".data, " B ".data)] (some " C ".data) (by decide) (by decide) (by decide) (by decide)
  exact h.trans (by decide)

end JR
